import Mathlib

/-!
Verification of the dependency-injection runtime in `src/injector/src/runtime/`
(the current generation of the code: `builder.rs`, `injector.rs`,
`unsafe_storage.rs`), together with the factory shape produced by the derive
layer (`injector-derive/src/derive_injectable.rs`).

Shallow embedding conventions:
* `TypeId` (Rust `std::any::TypeId`) is an opaque token compared only for
  equality; we model it as `Nat`.
* `multimap::MultiMap` / `std::collections::HashMap` are modelled as
  association lists with unique keys.  The iteration order of a Rust
  `HashMap` is unspecified, so wherever the code iterates over keys
  (`graph.keys().next()` in `topological_sort`) our theorems quantify over
  every arrangement of the association list: any real iteration order is one
  such arrangement.  Order *within* one key's vector is insertion order in
  both the real `MultiMap` and the model.
* A factory (`InjectMeta::create`) is modelled after what the derive macro
  generates: it fetches every declared dependency through `Injector::get`
  (panicking — here `Except.error` — when the dependency is not in the single
  index) and then returns a value whose runtime `TypeId` is the descriptor's
  declared identity.  The payload field distinguishes distinct factories.
* Rust panics are modelled as `Except.error` values; each `BuildError`
  constructor corresponds to one panic site of the source.  Note the source
  has no cycle-detection panic site at all.
-/

/-- Opaque identity token, Rust's `std::any::TypeId`; equality only. -/
abbrev TypeId := Nat

/-- Runtime metadata about an injectable type (`derive_api.rs`, `InjectMeta`).
`payload` stands for the identity of the `create` function: the value a
factory produces is determined by the meta that owns it. -/
structure InjectMeta where
  this : TypeId
  name : String
  dependencies : List TypeId
  is_multi_binding : Bool
  payload : Nat
deriving DecidableEq, Repr

/-- A constructed object (`Box<dyn Any>`): its runtime `TypeId` plus the
payload of the factory that produced it. -/
structure Value where
  tid : TypeId
  payload : Nat
deriving DecidableEq, Repr

/-- The value produced by `meta.create` (the derive-generated `create` always
returns a value of the descriptor's own static type). -/
def mkValue (m : InjectMeta) : Value := ⟨m.this, m.payload⟩

/-- `unsafe_storage.rs`: `UnsafeStore { items: Vec<Box<dyn Any>> }`. -/
structure UnsafeStore where
  items : List Value
deriving DecidableEq, Repr

/-- `UnsafeStore::get`: O(1) slot access, `none` only out of range. -/
def UnsafeStore.get (store : UnsafeStore) (item : Nat) : Option Value :=
  store.items[item]?

/-- `UnsafeStore::push`: append, return the new slot (the old length). -/
def UnsafeStore.push (store : UnsafeStore) (item : Value) : UnsafeStore × Nat :=
  (⟨store.items ++ [item]⟩, store.items.length)

/-- One step of `impl Drop for UnsafeStore`: `while let Some(item) =
self.items.pop()` releases the value at the highest occupied slot.
`dropLoop` returns the sequence of `(slot, value)` pairs in release order. -/
def dropLoop (items : List Value) (released : List (Nat × Value)) :
    List (Nat × Value) :=
  match h : items.getLast? with
  | none => released
  | some v =>
    dropLoop items.dropLast (released ++ [(items.length - 1, v)])
termination_by items.length
decreasing_by
  have : items ≠ [] := by
    intro he
    rw [he] at h
    simp at h
  have : 0 < items.length := List.length_pos.mpr this
  simp
  omega

/-- Teardown order of the arena: what `impl Drop for UnsafeStore` releases,
in release order. -/
def UnsafeStore.teardownOrder (store : UnsafeStore) : List (Nat × Value) :=
  dropLoop store.items []

lemma dropLoop_nil (acc : List (Nat × Value)) : dropLoop [] acc = acc := by
  rw [dropLoop]
  split
  · rfl
  · rename_i v h
    simp at h

lemma dropLoop_concat (l : List Value) (a : Value) (acc : List (Nat × Value)) :
    dropLoop (l ++ [a]) acc = dropLoop l (acc ++ [(l.length, a)]) := by
  rw [dropLoop]
  split
  · rename_i h
    simp at h
  · rename_i v h
    have hv : v = a := by
      rw [List.getLast?_concat] at h
      exact (Option.some_injective _ h).symm
    subst hv
    simp

lemma dropLoop_spec (l : List Value) (acc : List (Nat × Value)) :
    dropLoop l acc = acc ++ ((List.range l.length).zip l).reverse := by
  induction l using List.reverseRecOn generalizing acc with
  | nil => simp [dropLoop_nil]
  | append_singleton l a ih =>
    rw [dropLoop_concat, ih]
    have hzip : (List.range (l.length + 1)).zip (l ++ [a]) =
        ((List.range l.length).zip l) ++ [(l.length, a)] := by
      rw [List.range_succ, List.zip_append (by simp)]
      simp
    simp [hzip]

lemma teardownOrder_spec (store : UnsafeStore) :
    store.teardownOrder = ((List.range store.items.length).zip store.items).reverse := by
  unfold UnsafeStore.teardownOrder
  simpa using dropLoop_spec store.items []

/-- C3: Teardown of the arena releases the values in exact reverse insertion
order.  The slot sequence released by `impl Drop for UnsafeStore` is
`N-1, N-2, …, 0`; the value sequence is the reverse of the insertion
sequence; and the slot sequence is strictly decreasing, so no value is
released before every higher-numbered value has been released. -/
theorem c3_reverse_teardown (store : UnsafeStore) :
    store.teardownOrder.map Prod.fst = (List.range store.items.length).reverse ∧
    store.teardownOrder.map Prod.snd = store.items.reverse ∧
    List.Pairwise (fun a b => b < a) (store.teardownOrder.map Prod.fst) := by
  have hlen : (List.range store.items.length).length = store.items.length := by simp
  have hfst : store.teardownOrder.map Prod.fst = (List.range store.items.length).reverse := by
    rw [teardownOrder_spec, List.map_reverse]
    congr 1
    exact List.map_fst_zip _ _ (le_of_eq hlen)
  refine ⟨hfst, ?_, ?_⟩
  · rw [teardownOrder_spec, List.map_reverse]
    congr 1
    exact List.map_snd_zip _ _ (le_of_eq hlen.symm)
  · rw [hfst]
    rw [List.pairwise_reverse]
    simpa using List.pairwise_lt_range store.items.length

/-- C8: `UnsafeStore::push` appends at the next monotonically increasing slot
(the arena's current length, starting at 0 on an empty arena), never fails,
and leaves every already-occupied slot untouched: after the push, `get k`
returns exactly what it returned before, for every occupied `k`. -/
theorem c8_push_frame (store : UnsafeStore) (item : Value) (k : Nat)
    (hk : k < store.items.length) :
    (UnsafeStore.push store item).2 = store.items.length ∧
    (UnsafeStore.push store item).1.items.length = store.items.length + 1 ∧
    (UnsafeStore.push store item).1.get k = store.get k ∧
    store.get k ≠ none := by
  refine ⟨rfl, by simp [UnsafeStore.push], ?_, ?_⟩
  · simp [UnsafeStore.push, UnsafeStore.get]
    rw [List.getElem?_append_left hk]
  · simp [UnsafeStore.get]
    exact hk

/-- Closed witness for C8 at a concrete arena state. -/
theorem c8_push_frame_witness :
    (0 : Nat) < (UnsafeStore.mk [⟨5, 0⟩]).items.length ∧
    ((UnsafeStore.push ⟨[⟨5, 0⟩]⟩ ⟨7, 1⟩).2 = 1 ∧
      (UnsafeStore.push ⟨[⟨5, 0⟩]⟩ ⟨7, 1⟩).1.items.length = 2 ∧
      (UnsafeStore.push ⟨[⟨5, 0⟩]⟩ ⟨7, 1⟩).1.get 0 = UnsafeStore.get ⟨[⟨5, 0⟩]⟩ 0 ∧
      UnsafeStore.get ⟨[⟨5, 0⟩]⟩ 0 ≠ none) := by
  refine ⟨by decide, ?_⟩
  have h := c8_push_frame ⟨[⟨5, 0⟩]⟩ ⟨7, 1⟩ 0 (by decide)
  exact h

/-- A dependency graph: `MultiMap<TypeId, InjectMeta>` as an association list
with unique keys.  The association-list order stands for the hash map's
unspecified key iteration order. -/
abbrev Graph := List (TypeId × List InjectMeta)

/-- `graph.get(&t)` on the multimap: the vector of metas registered at `t`. -/
def lookupKey (g : Graph) (t : TypeId) : Option (List InjectMeta) :=
  (g.find? (fun e => e.1 == t)).map Prod.snd

/-- The metas registered under `t` (empty when `t` is absent). -/
def metasOf (g : Graph) (t : TypeId) : List InjectMeta :=
  (lookupKey g t).getD []

/-- `graph.remove(&t)`, the part that deletes the entry. -/
def eraseKey (g : Graph) (t : TypeId) : Graph :=
  g.filter (fun e => e.1 != t)

/-- The keys of the graph. -/
def keysOf (g : Graph) : List TypeId := g.map Prod.fst

/-- All metas in the graph, in key order. -/
def allMetas (g : Graph) : List InjectMeta := g.flatMap Prod.snd

/-- `VisitType` from `InjectorBuilder::topological_sort`. -/
inductive Visit where
  | beforeChildren (t : TypeId)
  | afterChildren (ms : List InjectMeta)
deriving DecidableEq, Repr

/-- The dependency identities of a vector of metas, in order
(`to_visit_metas.iter().flat_map(|meta| meta.dependencies.iter())`). -/
def childrenOf (ms : List InjectMeta) : List TypeId :=
  ms.flatMap (fun m => m.dependencies)

/-- The dependencies of the identity `t` as registered in `g`. -/
def depsOfKey (g : Graph) (t : TypeId) : List TypeId :=
  childrenOf (metasOf g t)

lemma eraseKey_length_lt (g : Graph) (t : TypeId) (ms : List InjectMeta)
    (h : lookupKey g t = some ms) : (eraseKey g t).length < g.length := by
  unfold lookupKey at h
  unfold eraseKey
  have hmem : ∃ e ∈ g, e.1 = t := by
    rcases Option.map_eq_some'.mp h with ⟨e, he, _⟩
    exact ⟨e, List.mem_of_find?_eq_some he, by simpa using List.find?_some he⟩
  rcases hmem with ⟨e, he, het⟩
  exact List.length_filter_lt_length_iff_exists.mpr ⟨e, he, by simp [het]⟩

/-- The inner DFS loop of `InjectorBuilder::topological_sort`
(`while let Some(to_visit) = dfs_queue.pop()`).  The queue is a stack whose
top is the head of the list.  On `BeforeChildren(t)`:
* `graph.remove(&t)` misses → continue (deferred silently);
* hit with metas `ms` → push `AfterChildren(ms)`, then push
  `BeforeChildren(child)` for each child in order, so the *last* child ends
  up on top of the stack.
On `AfterChildren(ms)`: `creation_order.extend(ms)`. -/
def dfsLoop (g : Graph) (q : List Visit) (order : List InjectMeta) :
    Graph × List InjectMeta :=
  match q with
  | [] => (g, order)
  | .beforeChildren t :: q' =>
    match h : lookupKey g t with
    | none => dfsLoop g q' order
    | some ms =>
      dfsLoop (eraseKey g t)
        (((childrenOf ms).reverse.map Visit.beforeChildren) ++
          Visit.afterChildren ms :: q') order
  | .afterChildren ms :: q' => dfsLoop g q' (order ++ ms)
termination_by (g.length, q.length)
decreasing_by
  · apply Prod.Lex.right
    simp
  · exact Prod.Lex.left _ _ (eraseKey_length_lt g t ms h)
  · apply Prod.Lex.right
    simp

lemma dfsLoop_graph_le (g : Graph) (q : List Visit) (order : List InjectMeta) :
    (dfsLoop g q order).1.length ≤ g.length := by
  rw [dfsLoop.eq_def]
  split
  · exact le_refl _
  · split
    · exact dfsLoop_graph_le _ _ _
    · rename_i t q' ms h
      exact le_trans (dfsLoop_graph_le _ _ _)
        (le_of_lt (eraseKey_length_lt g t ms h))
  · exact dfsLoop_graph_le _ _ _
termination_by (g.length, q.length)
decreasing_by
  all_goals first
  | exact Prod.Lex.left _ _ (eraseKey_length_lt _ _ _ (by assumption))
  | (apply Prod.Lex.right
     subst_vars
     simp only [List.length_cons]
     omega)

lemma dfsLoop_start_lt (g : Graph) (t : TypeId) (ms : List InjectMeta)
    (order : List InjectMeta) (h : lookupKey g t = some ms) :
    (dfsLoop g [Visit.beforeChildren t] order).1.length < g.length := by
  rw [dfsLoop.eq_def]
  split
  · rename_i hnil
    simp at hnil
  · rename_i t2 q2 h2
    injection h2 with ha hb
    injection ha with hc
    subst hc
    subst hb
    split
    · rename_i hnone
      rw [h] at hnone
      cases hnone
    · rename_i ms' h'
      rw [h] at h'
      injection h' with he
      subst he
      exact lt_of_le_of_lt (dfsLoop_graph_le _ _ _) (eraseKey_length_lt g t ms h)
  · rename_i ms2 q2 h3
    simp at h3

/-- The outer loop of `InjectorBuilder::topological_sort`
(`while let Some(&start) = graph.keys().next()`): pick the next remaining
key (here: the head of the association list, standing for whatever key the
hash map yields first) and run the DFS from it. -/
def sortLoop (g : Graph) (order : List InjectMeta) : List InjectMeta :=
  match g with
  | [] => order
  | (start, ms) :: rest =>
    let r := dfsLoop ((start, ms) :: rest) [Visit.beforeChildren start] order
    sortLoop r.1 r.2
termination_by g.length
decreasing_by
  exact dfsLoop_start_lt _ start ms order (by simp [lookupKey])

/-- `InjectorBuilder::topological_sort`. -/
def topological_sort (g : Graph) : List InjectMeta := sortLoop g []

lemma dfsLoop_nil_q (g : Graph) (order : List InjectMeta) :
    dfsLoop g [] order = (g, order) := by
  rw [dfsLoop]

lemma dfsLoop_before_miss (g : Graph) (t : TypeId) (q' : List Visit)
    (order : List InjectMeta) (h : lookupKey g t = none) :
    dfsLoop g (Visit.beforeChildren t :: q') order = dfsLoop g q' order := by
  rw [dfsLoop.eq_def]
  split
  · rename_i hnil
    cases hnil
  · rename_i t2 q2 h2
    injection h2 with ha hb
    injection ha with hc
    subst hc
    subst hb
    split
    · rfl
    · rename_i ms' h'
      rw [h] at h'
      cases h'
  · rename_i ms2 q2 h3
    cases h3

lemma dfsLoop_before_hit (g : Graph) (t : TypeId) (ms : List InjectMeta)
    (q' : List Visit) (order : List InjectMeta) (h : lookupKey g t = some ms) :
    dfsLoop g (Visit.beforeChildren t :: q') order =
      dfsLoop (eraseKey g t)
        (((childrenOf ms).reverse.map Visit.beforeChildren) ++
          Visit.afterChildren ms :: q') order := by
  rw [dfsLoop.eq_def]
  split
  · rename_i hnil
    cases hnil
  · rename_i t2 q2 h2
    injection h2 with ha hb
    injection ha with hc
    subst hc
    subst hb
    split
    · rename_i hnone
      rw [h] at hnone
      cases hnone
    · rename_i ms' h'
      rw [h] at h'
      injection h' with he
      subst he
      rfl
  · rename_i ms2 q2 h3
    cases h3

lemma dfsLoop_after (g : Graph) (ms : List InjectMeta) (q' : List Visit)
    (order : List InjectMeta) :
    dfsLoop g (Visit.afterChildren ms :: q') order = dfsLoop g q' (order ++ ms) := by
  rw [dfsLoop.eq_def]

lemma sortLoop_nil (order : List InjectMeta) : sortLoop [] order = order := by
  rw [sortLoop]

lemma sortLoop_cons (start : TypeId) (ms : List InjectMeta) (rest : Graph)
    (order : List InjectMeta) :
    sortLoop ((start, ms) :: rest) order =
      sortLoop (dfsLoop ((start, ms) :: rest) [Visit.beforeChildren start] order).1
        (dfsLoop ((start, ms) :: rest) [Visit.beforeChildren start] order).2 := by
  rw [sortLoop]

/-- The panic sites of the runtime, as error values.  There is no
cycle-detection panic anywhere in `runtime/`: the enumeration below is
exhaustive for the modelled code paths. -/
inductive BuildError where
  | unableToGet (t : TypeId)
  | unableToGetMulti (t : TypeId)
  | storeMiss (position : Nat)
  | downcastFailed (t : TypeId)
  | typeMismatch (name : String)
  | inconsistentBinding (name : String)
deriving DecidableEq, Repr

/-- `runtime/injector.rs`: `Injector { items, index, multi_bindings_index }`.
The two hash maps are association lists with unique keys. -/
structure Injector where
  items : UnsafeStore
  index : List (TypeId × Nat)
  multi_bindings_index : List (TypeId × List Nat)
deriving DecidableEq, Repr

/-- `HashMap::get` on the single-valued index. -/
def lookupIndex (idx : List (TypeId × Nat)) (t : TypeId) : Option Nat :=
  (idx.find? (fun e => e.1 == t)).map Prod.snd

/-- `HashMap::get` on the multi-valued index. -/
def lookupMulti (idx : List (TypeId × List Nat)) (t : TypeId) : Option (List Nat) :=
  (idx.find? (fun e => e.1 == t)).map Prod.snd

/-- `HashMap::insert` on the single-valued index: overwrite in place, or add
the key. -/
def indexInsert (idx : List (TypeId × Nat)) (t : TypeId) (p : Nat) :
    List (TypeId × Nat) :=
  if (idx.find? (fun e => e.1 == t)).isSome then
    idx.map (fun e => if e.1 == t then (e.1, p) else e)
  else idx ++ [(t, p)]

/-- `entry(t).or_insert_with(Vec::new).push(p)` on the multi index. -/
def multiAppend (idx : List (TypeId × List Nat)) (t : TypeId) (p : Nat) :
    List (TypeId × List Nat) :=
  if (idx.find? (fun e => e.1 == t)).isSome then
    idx.map (fun e => if e.1 == t then (e.1, e.2 ++ [p]) else e)
  else idx ++ [(t, [p])]

/-- `Injector::get` (`runtime/injector.rs` lines 38-54): look the identity up
in the single-valued index (panic naming the *fetched* identity when
absent), fetch the slot from the `UnsafeStore` (unwrap), downcast (unwrap:
the stored value's `TypeId` must equal the requested one). -/
def Injector.get (self : Injector) (t : TypeId) : Except BuildError Value :=
  match lookupIndex self.index t with
  | none => .error (.unableToGet t)
  | some position =>
    match UnsafeStore.get self.items position with
    | none => .error (.storeMiss position)
    | some v => if v.tid == t then .ok v else .error (.downcastFailed t)

/-- The per-position body of `get_all_trait_objects`: fetch the slot from
the store (unwrap) and downcast (unwrap). -/
def fetchTO (items : UnsafeStore) (t : TypeId) (position : Nat) :
    Except BuildError Value :=
  match UnsafeStore.get items position with
  | none => .error (.storeMiss position)
  | some v => if v.tid == t then Except.ok v else .error (.downcastFailed t)

/-- `Injector::get_all_trait_objects` (`runtime/injector.rs` lines 79-98):
look up the multi-valued position list (panic naming the identity when
absent) and map each position through the store and a downcast. -/
def Injector.get_all_trait_objects (self : Injector) (t : TypeId) :
    Except BuildError (List Value) :=
  match lookupMulti self.multi_bindings_index t with
  | none => .error (.unableToGetMulti t)
  | some positions => positions.mapM (fetchTO self.items t)

/-- A derive-generated factory (`derive_injectable.rs`, `get_create_fn`):
fetch every declared dependency through `Injector::get`, in declaration
order, then produce the value of the descriptor's own type. -/
def runFactory (meta : InjectMeta) (inj : Injector) : Except BuildError Value := do
  let _ ← meta.dependencies.mapM (fun d => inj.get d)
  pure (mkValue meta)

/-- `Injector::build_and_store` (`runtime/injector.rs` lines 100-129): run
the factory, assert the returned value's `TypeId` equals the declared one,
push into the arena, record the slot in the multi index (append) or the
single index (insert/overwrite). -/
def Injector.build_and_store (self : Injector) (meta : InjectMeta) :
    Except BuildError Injector := do
  let static_item ← runFactory meta self
  if static_item.tid == meta.this then
    let pushed := UnsafeStore.push self.items static_item
    if meta.is_multi_binding then
      pure { items := pushed.1, index := self.index,
             multi_bindings_index :=
               multiAppend self.multi_bindings_index meta.this pushed.2 }
    else
      pure { items := pushed.1,
             index := indexInsert self.index meta.this pushed.2,
             multi_bindings_index := self.multi_bindings_index }
  else
    .error (.typeMismatch meta.name)

/-- The construction loop of `InjectorBuilder::build_from_metadata`
(`for meta in sorted { self.injector.build_and_store(&meta); }`). -/
def buildFromSorted (inj : Injector) (metas : List InjectMeta) :
    Except BuildError Injector :=
  match metas with
  | [] => .ok inj
  | m :: rest =>
    match inj.build_and_store m with
    | .error e => .error e
    | .ok inj' => buildFromSorted inj' rest

/-- The empty injector `Injector::builder()` starts from. -/
def emptyInjector : Injector := ⟨⟨[]⟩, [], []⟩

/-- `MultiMap::collect`: insert each meta under its key; order within one
key's vector is insertion order. -/
def insertMultiEntry (g : Graph) (m : InjectMeta) : Graph :=
  if (g.find? (fun e => e.1 == m.this)).isSome then
    g.map (fun e => if e.1 == m.this then (e.1, e.2 ++ [m]) else e)
  else g ++ [(m.this, [m])]

/-- Collect an iterator of metas into the `MultiMap` keyed by `meta.this`. -/
def collectMulti (metas : List InjectMeta) : Graph :=
  metas.foldl insertMultiEntry []

/-- `InjectorBuilder::build_from_metadata`: group by identity, sort, build. -/
def build_from_metadata (metas : List InjectMeta) : Except BuildError Injector :=
  buildFromSorted emptyInjector (topological_sort (collectMulti metas))

/-- `derive_api.rs`, `BindingMeta`: a `#[binding]`/`#[multi_binding]`
declaration. `payload` stands for the identity of its `create` function. -/
structure BindingMeta where
  trait_object : TypeId
  name : String
  impl_type : TypeId
  is_multi_binding : Bool
  payload : Nat
deriving DecidableEq, Repr

/-- The binding-vs-multi-binding consistency test of
`InjectorBuilder::build_the_world` (`builder.rs` lines 26-31):
`bindings.len() > 1 || bindings[0].is_multi_binding`, and then
`bindings.iter().any(|binding| !binding.is_multi_binding)` triggers the
panic. -/
def bindingGroupFails (bs : List BindingMeta) : Bool :=
  (decide (bs.length > 1) || ((bs.head?.map (fun b => b.is_multi_binding)).getD false)) &&
    bs.any (fun b => !b.is_multi_binding)

/-- `MultiMap::collect` for bindings, keyed by `binding.trait_object`. -/
def collectBindings (bs : List BindingMeta) : List (TypeId × List BindingMeta) :=
  bs.foldl (fun acc b =>
    if (acc.find? (fun e => e.1 == b.trait_object)).isSome then
      acc.map (fun e => if e.1 == b.trait_object then (e.1, e.2 ++ [b]) else e)
    else acc ++ [(b.trait_object, [b])]) []

/-- `builder.rs` lines 33-41: turn a binding into an `InjectMeta` whose
identity is the trait object and whose sole dependency is the impl type. -/
def bindingToMeta (b : BindingMeta) : InjectMeta :=
  ⟨b.trait_object, b.name, [b.impl_type], b.is_multi_binding, b.payload⟩

/-- The binding validation performed inside `build_the_world`'s `flat_map`:
the first group that fails the consistency test panics, naming
`bindings[0].name`. -/
def validateBindings (bs : List BindingMeta) : Option String :=
  ((collectBindings bs).find? (fun e => bindingGroupFails e.2)).map
    (fun e => (e.2.head?.map (fun b => b.name)).getD "")

/-- `InjectorBuilder::build_the_world`: normal metas chained with the
validated, materialized binding metas, then `build_from_metadata`. -/
def build_the_world (normals : List InjectMeta) (bindings : List BindingMeta) :
    Except BuildError Injector :=
  match validateBindings bindings with
  | some name => .error (.inconsistentBinding name)
  | none => build_from_metadata
      (normals ++ (collectBindings bindings).flatMap (fun e => e.2.map bindingToMeta))

/-- Well-formedness of a graph as produced by `MultiMap::collect`: unique
keys, nonempty vectors, every meta filed under its own identity. -/
def WfGraph (g : Graph) : Prop :=
  (keysOf g).Nodup ∧ (∀ e ∈ g, e.2 ≠ []) ∧ (∀ e ∈ g, ∀ m ∈ e.2, m.this = e.1)

/-- All of a graph's dependencies are registered in the graph. -/
def ClosedGraph (g : Graph) : Prop :=
  ∀ e ∈ g, ∀ m ∈ e.2, ∀ d ∈ m.dependencies, d ∈ keysOf g

/-- Every identity used as a dependency is registered single-valued (in the
source, dependencies are always concrete `InjectableStatic` types, never
trait objects, so their metas are never `is_multi_binding`). -/
def DepsSingleValued (g : Graph) : Prop :=
  ∀ e ∈ g, ∀ m ∈ e.2, ∀ d ∈ m.dependencies, ∀ m' ∈ metasOf g d,
    m'.is_multi_binding = false

instance (g : Graph) : Decidable (ClosedGraph g) := by
  unfold ClosedGraph
  infer_instance

instance (g : Graph) : Decidable (DepsSingleValued g) := by
  unfold DepsSingleValued
  infer_instance

instance (g : Graph) : Decidable (WfGraph g) := by
  unfold WfGraph
  infer_instance

/-- Identity `a` directly depends on identity `b` in graph `g`. -/
def EdgeKey (g : Graph) (a b : TypeId) : Prop := b ∈ depsOfKey g a

/-- The registered dependency relation has no (transitive) cycle. -/
def AcyclicKeys (g : Graph) : Prop :=
  ∀ a, ¬ Relation.TransGen (EdgeKey g) a a

lemma lookupKey_eq_none_iff (g : Graph) (t : TypeId) :
    lookupKey g t = none ↔ t ∉ keysOf g := by
  unfold lookupKey keysOf
  rw [Option.map_eq_none', List.find?_eq_none]
  constructor
  · intro h hmem
    rcases List.mem_map.mp hmem with ⟨e, he, het⟩
    exact absurd (by simpa using het) (by simpa using h e he)
  · intro h e he
    simp only [beq_iff_eq]
    intro het
    exact h (List.mem_map.mpr ⟨e, he, het⟩)

lemma lookupKey_mem (g : Graph) (t : TypeId) (ms : List InjectMeta)
    (h : lookupKey g t = some ms) : (t, ms) ∈ g := by
  unfold lookupKey at h
  rcases Option.map_eq_some'.mp h with ⟨e, he, hsnd⟩
  have hfst : e.1 = t := by simpa using List.find?_some he
  have : e = (t, ms) := by
    cases e
    simp_all
  exact this ▸ List.mem_of_find?_eq_some he

lemma lookupKey_of_mem (g : Graph) (hnd : (keysOf g).Nodup)
    (e : TypeId × List InjectMeta) (he : e ∈ g) : lookupKey g e.1 = some e.2 := by
  induction g with
  | nil => cases he
  | cons e' rest ih =>
    rcases List.mem_cons.mp he with h1 | h2
    · subst h1
      unfold lookupKey
      simp
    · have hne : e'.1 ≠ e.1 := by
        intro hEq
        have : e.1 ∈ keysOf rest := List.mem_map.mpr ⟨e, h2, rfl⟩
        rw [← hEq] at this
        exact (List.nodup_cons.mp (by simpa [keysOf] using hnd)).1 this
      have := ih (List.nodup_cons.mp (by simpa [keysOf] using hnd)).2 h2
      unfold lookupKey at this ⊢
      rw [List.find?_cons_of_neg _ (by simp [hne])]
      exact this

lemma metasOf_of_mem (g : Graph) (hnd : (keysOf g).Nodup)
    (e : TypeId × List InjectMeta) (he : e ∈ g) : metasOf g e.1 = e.2 := by
  unfold metasOf
  rw [lookupKey_of_mem g hnd e he]
  rfl

lemma mem_eraseKey (g : Graph) (t : TypeId) (e : TypeId × List InjectMeta) :
    e ∈ eraseKey g t ↔ e ∈ g ∧ e.1 ≠ t := by
  unfold eraseKey
  rw [List.mem_filter]
  simp

lemma eraseKey_sublist (g : Graph) (t : TypeId) : List.Sublist (eraseKey g t) g :=
  List.filter_sublist g

lemma keysOf_eraseKey (g : Graph) (t : TypeId) (x : TypeId) :
    x ∈ keysOf (eraseKey g t) ↔ x ∈ keysOf g ∧ x ≠ t := by
  unfold keysOf
  constructor
  · intro h
    rcases List.mem_map.mp h with ⟨e, he, hx⟩
    rcases (mem_eraseKey g t e).mp he with ⟨heg, hne⟩
    exact ⟨List.mem_map.mpr ⟨e, heg, hx⟩, hx ▸ hne⟩
  · intro ⟨h, hne⟩
    rcases List.mem_map.mp h with ⟨e, he, hx⟩
    exact List.mem_map.mpr ⟨e, (mem_eraseKey g t e).mpr ⟨he, hx ▸ hne⟩, hx⟩

lemma keysOf_sublist (g g' : Graph) (h : List.Sublist g' g) :
    List.Sublist (keysOf g') (keysOf g) := List.Sublist.map Prod.fst h

lemma lookupKey_sub (g0 g : Graph) (hnd : (keysOf g0).Nodup)
    (hsub : List.Sublist g g0) (t : TypeId) (ms : List InjectMeta)
    (h : lookupKey g t = some ms) : lookupKey g0 t = some ms := by
  have hmem := lookupKey_mem g t ms h
  exact lookupKey_of_mem g0 hnd (t, ms) (hsub.subset hmem)

lemma flatMap_keys_eq_allMetas (g : Graph) (hnd : (keysOf g).Nodup) :
    (keysOf g).flatMap (metasOf g) = allMetas g := by
  unfold allMetas
  induction g with
  | nil => rfl
  | cons e rest ih =>
    have hnd' : (keysOf rest).Nodup := (List.nodup_cons.mp (by simpa [keysOf] using hnd)).2
    have hni : e.1 ∉ keysOf rest := (List.nodup_cons.mp (by simpa [keysOf] using hnd)).1
    have hhead : metasOf (e :: rest) e.1 = e.2 :=
      metasOf_of_mem (e :: rest) (by simpa [keysOf] using hnd) e (List.mem_cons_self _ _)
    have htail : ∀ x ∈ keysOf rest, metasOf (e :: rest) x = metasOf rest x := by
      intro x hx
      have hne : e.1 ≠ x := fun hEq => hni (hEq ▸ hx)
      unfold metasOf lookupKey
      rw [List.find?_cons_of_neg _ (by simp [hne])]
    calc (keysOf (e :: rest)).flatMap (metasOf (e :: rest))
        = metasOf (e :: rest) e.1 ++ (keysOf rest).flatMap (metasOf (e :: rest)) := by
          simp [keysOf]
      _ = e.2 ++ (keysOf rest).flatMap (metasOf rest) := by
          rw [hhead, List.flatMap_congr htail]
      _ = e.2 ++ rest.flatMap Prod.snd := by rw [ih hnd']
      _ = (e :: rest).flatMap Prod.snd := by simp

/-- The key an `AfterChildren` entry finalizes (its metas' shared identity). -/
def afterKeyOf (ms : List InjectMeta) : TypeId :=
  (ms.head?.map (fun m => m.this)).getD 0

/-- Keys of the pending `AfterChildren` entries, top of stack first. -/
def afterKeysOf (q : List Visit) : List TypeId :=
  q.filterMap (fun v => match v with
    | .afterChildren ms => some (afterKeyOf ms)
    | .beforeChildren _ => none)

/-- Every pending `AfterChildren` entry holds exactly the metas the original
graph registers for its key. -/
def AftersWf (g0 : Graph) (q : List Visit) : Prop :=
  ∀ ms, Visit.afterChildren ms ∈ q → ms ≠ [] ∧ ms = metasOf g0 (afterKeyOf ms)

lemma afterKeysOf_before (t : TypeId) (q : List Visit) :
    afterKeysOf (Visit.beforeChildren t :: q) = afterKeysOf q := rfl

lemma afterKeysOf_after (ms : List InjectMeta) (q : List Visit) :
    afterKeysOf (Visit.afterChildren ms :: q) = afterKeyOf ms :: afterKeysOf q := rfl

lemma afterKeysOf_append (q1 q2 : List Visit) :
    afterKeysOf (q1 ++ q2) = afterKeysOf q1 ++ afterKeysOf q2 := by
  unfold afterKeysOf
  exact List.filterMap_append _ _ _

lemma afterKeysOf_befores (ts : List TypeId) :
    afterKeysOf (ts.map Visit.beforeChildren) = [] := by
  unfold afterKeysOf
  rw [List.filterMap_map]
  exact List.filterMap_eq_nil.mpr (fun a _ => rfl)

/-- The invariant of the DFS loop needed for the permutation result: the
remaining graph is a sub-association-list of the original; the pending
`AfterChildren` entries carry exactly the original groups; remaining keys,
in-progress keys, and finalized keys are mutually disjoint and jointly cover
the original keys. -/
structure LInv (g0 g : Graph) (q : List Visit) (fin : List TypeId) : Prop where
  sub : List.Sublist g g0
  afWf : AftersWf g0 q
  afNodup : (afterKeysOf q).Nodup
  disjGF : ∀ t ∈ keysOf g, t ∉ fin
  disjGA : ∀ t ∈ keysOf g, t ∉ afterKeysOf q
  disjAF : ∀ t ∈ afterKeysOf q, t ∉ fin
  cover : ∀ t ∈ keysOf g0, t ∈ keysOf g ∨ t ∈ afterKeysOf q ∨ t ∈ fin
  finNodup : fin.Nodup
  finSub : ∀ t ∈ fin, t ∈ keysOf g0

lemma mem_keys_of_metasOf_ne_nil (g : Graph) (t : TypeId)
    (h : metasOf g t ≠ []) : t ∈ keysOf g := by
  unfold metasOf at h
  cases hl : lookupKey g t with
  | none => rw [hl] at h; simp at h
  | some ms =>
    have := lookupKey_mem g t ms hl
    exact List.mem_map.mpr ⟨(t, ms), this, rfl⟩

lemma afterKeyOf_eq_this (g0 : Graph) (wf : WfGraph g0) (t : TypeId)
    (ms : List InjectMeta) (hmem : (t, ms) ∈ g0) (hne : ms ≠ []) :
    afterKeyOf ms = t := by
  cases ms with
  | nil => cases hne rfl
  | cons m rest =>
    have h1 := wf.2.2 (t, m :: rest) hmem m (List.mem_cons_self _ _)
    simp [afterKeyOf, h1]

theorem dfsLoop_linv (g0 : Graph) (wf : WfGraph g0) (g : Graph) (q : List Visit)
    (fin : List TypeId) (ord : List InjectMeta) (inv : LInv g0 g q fin)
    (hord : ord = fin.flatMap (metasOf g0)) :
    ∃ fin', LInv g0 (dfsLoop g q ord).1 [] fin' ∧
      (dfsLoop g q ord).2 = fin'.flatMap (metasOf g0) := by
  cases q with
  | nil =>
    rw [dfsLoop_nil_q]
    exact ⟨fin, inv, hord⟩
  | cons v q' =>
    cases v with
    | beforeChildren t =>
      cases h : lookupKey g t with
      | none =>
        rw [dfsLoop_before_miss g t q' ord h]
        refine dfsLoop_linv g0 wf g q' fin ord ?_ hord
        exact {
          sub := inv.sub
          afWf := fun ms hms => inv.afWf ms (List.mem_cons_of_mem _ hms)
          afNodup := inv.afNodup
          disjGF := inv.disjGF
          disjGA := inv.disjGA
          disjAF := inv.disjAF
          cover := inv.cover
          finNodup := inv.finNodup
          finSub := inv.finSub }
      | some ms =>
        rw [dfsLoop_before_hit g t ms q' ord h]
        have hmemg : (t, ms) ∈ g := lookupKey_mem g t ms h
        have hmemg0 : (t, ms) ∈ g0 := inv.sub.subset hmemg
        have hmsne : ms ≠ [] := wf.2.1 (t, ms) hmemg0
        have hak : afterKeyOf ms = t := afterKeyOf_eq_this g0 wf t ms hmemg0 hmsne
        have hmeq : metasOf g0 t = ms := metasOf_of_mem g0 wf.1 (t, ms) hmemg0
        have htk : t ∈ keysOf g := List.mem_map.mpr ⟨(t, ms), hmemg, rfl⟩
        have hafl : afterKeysOf
            (((childrenOf ms).reverse.map Visit.beforeChildren) ++
              Visit.afterChildren ms :: q') = t :: afterKeysOf q' := by
          rw [afterKeysOf_append, afterKeysOf_befores, afterKeysOf_after, hak]
          rfl
        refine dfsLoop_linv g0 wf (eraseKey g t) _ fin ord ?_ hord
        exact {
          sub := (eraseKey_sublist g t).trans inv.sub
          afWf := by
            intro ms' hms'
            rcases List.mem_append.mp hms' with hA | hRest
            · rcases List.mem_map.mp hA with ⟨x, _, hx⟩
              cases hx
            · rcases List.mem_cons.mp hRest with hHead | hTail
              · cases hHead
                exact ⟨hmsne, by rw [hak, hmeq]⟩
              · exact inv.afWf ms' (List.mem_cons_of_mem _ hTail)
          afNodup := by
            rw [hafl]
            exact List.nodup_cons.mpr ⟨inv.disjGA t htk, inv.afNodup⟩
          disjGF := fun x hx =>
            inv.disjGF x ((keysOf_eraseKey g t x).mp hx).1
          disjGA := by
            intro x hx
            rw [hafl]
            rcases (keysOf_eraseKey g t x).mp hx with ⟨hxg, hxt⟩
            intro hmem
            rcases List.mem_cons.mp hmem with hEq | h2
            · exact hxt hEq
            · exact inv.disjGA x hxg h2
          disjAF := by
            intro y hy
            rw [hafl] at hy
            rcases List.mem_cons.mp hy with rfl | hy'
            · exact inv.disjGF y htk
            · exact inv.disjAF y hy'
          cover := by
            intro x hx
            rw [hafl]
            rcases inv.cover x hx with hxg | hxa | hxf
            · by_cases hxt : x = t
              · exact Or.inr (Or.inl (by simp [hxt]))
              · exact Or.inl ((keysOf_eraseKey g t x).mpr ⟨hxg, hxt⟩)
            · exact Or.inr (Or.inl (List.mem_cons_of_mem _ hxa))
            · exact Or.inr (Or.inr hxf)
          finNodup := inv.finNodup
          finSub := inv.finSub }
    | afterChildren ms =>
      rw [dfsLoop_after]
      have hAf := inv.afWf ms (List.mem_cons_self _ _)
      have hkmem : afterKeyOf ms ∈ keysOf g0 :=
        mem_keys_of_metasOf_ne_nil g0 (afterKeyOf ms) (by rw [← hAf.2]; exact hAf.1)
      have hknotfin : afterKeyOf ms ∉ fin :=
        inv.disjAF (afterKeyOf ms) (by rw [afterKeysOf_after]; exact List.mem_cons_self _ _)
      have hknotaf : afterKeyOf ms ∉ afterKeysOf q' := by
        have h2 := inv.afNodup
        rw [afterKeysOf_after] at h2
        exact (List.nodup_cons.mp h2).1
      refine dfsLoop_linv g0 wf g q' (fin ++ [afterKeyOf ms]) (ord ++ ms) ?_ ?_
      · exact {
          sub := inv.sub
          afWf := fun ms' hms' => inv.afWf ms' (List.mem_cons_of_mem _ hms')
          afNodup := by
            have h2 := inv.afNodup
            rw [afterKeysOf_after] at h2
            exact (List.nodup_cons.mp h2).2
          disjGF := by
            intro x hx
            have h1 := inv.disjGF x hx
            have h2 := inv.disjGA x hx
            rw [afterKeysOf_after] at h2
            simp only [List.mem_append, List.mem_singleton]
            rintro (hf | hk)
            · exact h1 hf
            · exact h2 (hk ▸ List.mem_cons_self _ _)
          disjGA := by
            intro x hx
            have h2 := inv.disjGA x hx
            rw [afterKeysOf_after] at h2
            exact fun hm => h2 (List.mem_cons_of_mem _ hm)
          disjAF := by
            intro y hy
            have h1 := inv.disjAF y
              (by rw [afterKeysOf_after]; exact List.mem_cons_of_mem _ hy)
            simp only [List.mem_append, List.mem_singleton]
            rintro (hf | hk)
            · exact h1 hf
            · exact hknotaf (hk ▸ hy)
          cover := by
            intro x hx
            rcases inv.cover x hx with hxg | hxa | hxf
            · exact Or.inl hxg
            · rw [afterKeysOf_after] at hxa
              rcases List.mem_cons.mp hxa with rfl | hxa'
              · exact Or.inr (Or.inr (by simp))
              · exact Or.inr (Or.inl hxa')
            · exact Or.inr (Or.inr (by simp [hxf]))
          finNodup := by
            rw [List.nodup_append]
            exact ⟨inv.finNodup, List.nodup_singleton _, by simpa using hknotfin⟩
          finSub := by
            intro x hxm
            rcases List.mem_append.mp hxm with hf | hk
            · exact inv.finSub x hf
            · exact (List.mem_singleton.mp hk) ▸ hkmem }
      · rw [hord, List.flatMap_append]
        simp [hAf.2.symm]
termination_by (g.length, q.length)
decreasing_by
  all_goals first
  | exact Prod.Lex.left _ _ (eraseKey_length_lt _ _ _ (by assumption))
  | (apply Prod.Lex.right
     subst_vars
     simp)

theorem sortLoop_linv (g0 : Graph) (wf : WfGraph g0) (g : Graph)
    (fin : List TypeId) (ord : List InjectMeta) (inv : LInv g0 g [] fin)
    (hord : ord = fin.flatMap (metasOf g0)) :
    ∃ fin', LInv g0 [] [] fin' ∧ sortLoop g ord = fin'.flatMap (metasOf g0) := by
  cases g with
  | nil => exact ⟨fin, inv, by rw [sortLoop_nil, hord]⟩
  | cons e rest =>
    obtain ⟨start, ms⟩ := e
    rw [sortLoop_cons start ms rest ord]
    have hlk : lookupKey ((start, ms) :: rest) start = some ms := by
      simp [lookupKey]
    have inv1 : LInv g0 ((start, ms) :: rest) [Visit.beforeChildren start] fin := {
      sub := inv.sub
      afWf := by
        intro ms' hms'
        rcases List.mem_cons.mp hms' with hEq | hIn
        · cases hEq
        · cases hIn
      afNodup := List.nodup_nil
      disjGF := inv.disjGF
      disjGA := fun t _ h => by cases h
      disjAF := fun t h => by cases h
      cover := by
        intro t ht
        rcases inv.cover t ht with h1 | h1 | h1
        · exact Or.inl h1
        · cases h1
        · exact Or.inr (Or.inr h1)
      finNodup := inv.finNodup
      finSub := inv.finSub }
    obtain ⟨fin1, invR, hordR⟩ :=
      dfsLoop_linv g0 wf ((start, ms) :: rest) [Visit.beforeChildren start] fin ord inv1 hord
    exact sortLoop_linv g0 wf _ fin1 _ invR hordR
termination_by g.length
decreasing_by
  subst_vars
  exact dfsLoop_start_lt _ start ms _ hlk

/-- In the final state of the light invariant the finalized keys are exactly
the original keys. -/
lemma linv_final_perm (g0 : Graph) (wf : WfGraph g0) (fin : List TypeId)
    (inv : LInv g0 [] [] fin) : List.Perm fin (keysOf g0) := by
  have hmem : ∀ t, t ∈ fin ↔ t ∈ keysOf g0 := by
    intro t
    constructor
    · exact inv.finSub t
    · intro ht
      rcases inv.cover t ht with h1 | h1 | h1
      · simp [keysOf] at h1
      · cases h1
      · exact h1
  exact List.perm_of_nodup_nodup_toFinset_eq inv.finNodup
    ((wf.1.sublist (List.Sublist.refl _)))
    (by ext a; simp [hmem a])

/-- The sort, on any well-formed graph (cyclic or not, closed or not),
terminates normally and emits every registered meta exactly once: its output
is a permutation of the graph's metas. -/
theorem topological_sort_perm_all (g0 : Graph) (wf : WfGraph g0) :
    List.Perm (topological_sort g0) (allMetas g0) := by
  have inv0 : LInv g0 g0 [] [] := {
    sub := List.Sublist.refl g0
    afWf := fun ms hms => absurd hms (List.not_mem_nil _)
    afNodup := List.nodup_nil
    disjGF := fun t _ h => by cases h
    disjGA := fun t _ h => by cases h
    disjAF := fun t h => by cases h
    cover := fun t ht => Or.inl ht
    finNodup := List.nodup_nil
    finSub := fun t h => by cases h }
  obtain ⟨fin', invF, heq⟩ := sortLoop_linv g0 wf g0 [] [] inv0 rfl
  have hperm := linv_final_perm g0 wf fin' invF
  rw [topological_sort, heq]
  have h2 := hperm.flatMap_right (metasOf g0)
  rwa [flatMap_keys_eq_allMetas g0 wf.1] at h2

/-- Whether an identity may legally sit above the given DFS context: it must
be a dependency of the context key (no constraint at top level). -/
def parentOk (g0 : Graph) (ctx : Option TypeId) (c : TypeId) : Prop :=
  match ctx with
  | none => True
  | some b => c ∈ depsOfKey g0 b

/-- Structure of the DFS stack read bottom-first: every entry is a child of
the nearest `AfterChildren` below it, and each `AfterChildren` updates the
context to its own key. -/
def BStruct (g0 : Graph) : List Visit → Option TypeId → Prop
  | [], _ => True
  | .beforeChildren c :: rest, ctx => parentOk g0 ctx c ∧ BStruct g0 rest ctx
  | .afterChildren ms :: rest, ctx =>
      parentOk g0 ctx (afterKeyOf ms) ∧ BStruct g0 rest (some (afterKeyOf ms))

/-- The context after processing a bottom-first stack segment. -/
def ctxEnd : List Visit → Option TypeId → Option TypeId
  | [], ctx => ctx
  | .beforeChildren _ :: rest, ctx => ctxEnd rest ctx
  | .afterChildren ms :: rest, _ => ctxEnd rest (some (afterKeyOf ms))

lemma bstruct_append (g0 : Graph) (l1 l2 : List Visit) (ctx : Option TypeId) :
    BStruct g0 (l1 ++ l2) ctx ↔ BStruct g0 l1 ctx ∧ BStruct g0 l2 (ctxEnd l1 ctx) := by
  induction l1 generalizing ctx with
  | nil => simp [BStruct, ctxEnd]
  | cons v rest ih =>
    cases v with
    | beforeChildren c =>
      simp only [List.cons_append, List.append_eq, BStruct, ctxEnd, ih, and_assoc]
    | afterChildren ms =>
      simp only [List.cons_append, List.append_eq, BStruct, ctxEnd, ih, and_assoc]

lemma bstruct_befores (g0 : Graph) (ts : List TypeId) (ctx : Option TypeId) :
    BStruct g0 (ts.map Visit.beforeChildren) ctx ↔ ∀ c ∈ ts, parentOk g0 ctx c := by
  induction ts with
  | nil => simp [BStruct]
  | cons c rest ih =>
    simp [BStruct, ih]

lemma ctxEnd_befores (ts : List TypeId) (ctx : Option TypeId) :
    ctxEnd (ts.map Visit.beforeChildren) ctx = ctx := by
  induction ts with
  | nil => rfl
  | cons c rest ih => simpa [ctxEnd] using ih

lemma mem_afterKeysOf (l : List Visit) (d : TypeId) :
    d ∈ afterKeysOf l ↔ ∃ ms, Visit.afterChildren ms ∈ l ∧ afterKeyOf ms = d := by
  unfold afterKeysOf
  rw [List.mem_filterMap]
  constructor
  · rintro ⟨v, hv, hmatch⟩
    cases v with
    | beforeChildren t => simp at hmatch
    | afterChildren ms => exact ⟨ms, hv, by simpa using hmatch⟩
  · rintro ⟨ms, hms, hk⟩
    exact ⟨Visit.afterChildren ms, hms, by simpa using hk⟩

lemma ctxChain (g0 : Graph) (r : List Visit) (b : TypeId)
    (h : BStruct g0 r (some b)) :
    ∃ e, ctxEnd r (some b) = some e ∧
      Relation.ReflTransGen (EdgeKey g0) b e := by
  induction r generalizing b with
  | nil => exact ⟨b, rfl, Relation.ReflTransGen.refl⟩
  | cons v rest ih =>
    cases v with
    | beforeChildren c => exact ih b h.2
    | afterChildren ms =>
      obtain ⟨e, he, hr⟩ := ih (afterKeyOf ms) h.2
      exact ⟨e, he, Relation.ReflTransGen.head h.1 hr⟩

lemma ctxReach (g0 : Graph) (r : List Visit) (ctx : Option TypeId)
    (ms : List InjectMeta) (h : BStruct g0 r ctx)
    (hmem : Visit.afterChildren ms ∈ r) :
    ∃ e, ctxEnd r ctx = some e ∧
      Relation.ReflTransGen (EdgeKey g0) (afterKeyOf ms) e := by
  induction r generalizing ctx with
  | nil => cases hmem
  | cons v rest ih =>
    cases v with
    | beforeChildren c =>
      rcases List.mem_cons.mp hmem with hEq | hIn
      · cases hEq
      · exact ih ctx h.2 hIn
    | afterChildren ms' =>
      rcases List.mem_cons.mp hmem with hEq | hIn
      · cases hEq
        exact ctxChain g0 rest (afterKeyOf ms) h.2
      · exact ih (some (afterKeyOf ms')) h.2 hIn

/-- A dependency `d` required by a pending `AfterChildren` entry is resolved
relative to the stack segment `above` it: already finalized, unregistered
(deferred silently), or scheduled/in progress above. -/
def ResolvedIn (g0 : Graph) (d : TypeId) (above : List Visit)
    (fin : List TypeId) : Prop :=
  d ∈ fin ∨ d ∉ keysOf g0 ∨ Visit.beforeChildren d ∈ above ∨ d ∈ afterKeysOf above

/-- Every dependency of every pending `AfterChildren` entry is resolved
relative to the part of the stack above that entry. -/
def AftersOk (g0 : Graph) (q : List Visit) (fin : List TypeId) : Prop :=
  ∀ above ms below, q = above ++ Visit.afterChildren ms :: below →
    ∀ d ∈ childrenOf ms, ResolvedIn g0 d above fin

/-- Every finalized key's registered dependencies were finalized strictly
earlier. -/
def GoodFin (g0 : Graph) (fin : List TypeId) : Prop :=
  ∀ pre t suf, fin = pre ++ t :: suf → ∀ d ∈ depsOfKey g0 t, d ∈ keysOf g0 → d ∈ pre

lemma aftersOk_cons (g0 : Graph) (x : Visit) (q1 : List Visit)
    (fin : List TypeId) :
    AftersOk g0 (x :: q1) fin ↔
      (∀ ms, x = Visit.afterChildren ms → ∀ d ∈ childrenOf ms, ResolvedIn g0 d [] fin) ∧
      (∀ above ms below, q1 = above ++ Visit.afterChildren ms :: below →
        ∀ d ∈ childrenOf ms, ResolvedIn g0 d (x :: above) fin) := by
  constructor
  · intro h
    constructor
    · intro ms hx d hd
      exact h [] ms q1 (by simp [hx]) d hd
    · intro above ms below hq d hd
      exact h (x :: above) ms below (by simp [hq]) d hd
  · intro ⟨h1, h2⟩ above ms below hq d hd
    cases above with
    | nil =>
      injection hq with hx hq1
      exact h1 ms hx d hd
    | cons a as =>
      injection hq with hx hq1
      subst hx
      exact h2 as ms below hq1 d hd

lemma resolvedIn_mono_fin (g0 : Graph) (d : TypeId) (above : List Visit)
    (fin fin' : List TypeId) (hsub : ∀ t ∈ fin, t ∈ fin')
    (h : ResolvedIn g0 d above fin) : ResolvedIn g0 d above fin' := by
  rcases h with h | h | h | h
  · exact Or.inl (hsub d h)
  · exact Or.inr (Or.inl h)
  · exact Or.inr (Or.inr (Or.inl h))
  · exact Or.inr (Or.inr (Or.inr h))

lemma append_singleton_decomp (fin : List TypeId) (k : TypeId)
    (pre : List TypeId) (x : TypeId) (suf : List TypeId)
    (h : fin ++ [k] = pre ++ x :: suf) :
    (suf = [] ∧ pre = fin ∧ x = k) ∨
    (∃ suf1, suf = suf1 ++ [k] ∧ fin = pre ++ x :: suf1) := by
  rcases List.append_eq_append_iff.mp h with ⟨a, ha1, ha2⟩ | ⟨c, hc1, hc2⟩
  · cases a with
    | nil =>
      rw [List.nil_append] at ha2
      injection ha2 with h1 h2
      exact Or.inl ⟨h2.symm, by simp [ha1], h1.symm⟩
    | cons y ys =>
      exfalso
      have hlen := congrArg List.length ha2
      simp at hlen
  · cases c with
    | nil =>
      rw [List.nil_append] at hc2
      injection hc2 with h1 h2
      exact Or.inl ⟨h2, by simp [hc1], h1⟩
    | cons y ys =>
      rw [List.cons_append] at hc2
      injection hc2 with h1 h2
      subst h1
      exact Or.inr ⟨ys, h2, by rw [hc1]⟩

lemma linv_drop_before (g0 g : Graph) (t : TypeId) (q' : List Visit)
    (fin : List TypeId) (inv : LInv g0 g (Visit.beforeChildren t :: q') fin) :
    LInv g0 g q' fin := {
  sub := inv.sub
  afWf := fun ms hms => inv.afWf ms (List.mem_cons_of_mem _ hms)
  afNodup := inv.afNodup
  disjGF := inv.disjGF
  disjGA := inv.disjGA
  disjAF := inv.disjAF
  cover := inv.cover
  finNodup := inv.finNodup
  finSub := inv.finSub }

lemma linv_step_hit (g0 : Graph) (wf : WfGraph g0) (g : Graph) (t : TypeId)
    (ms : List InjectMeta) (q' : List Visit) (fin : List TypeId)
    (h : lookupKey g t = some ms)
    (inv : LInv g0 g (Visit.beforeChildren t :: q') fin) :
    LInv g0 (eraseKey g t)
      (((childrenOf ms).reverse.map Visit.beforeChildren) ++
        Visit.afterChildren ms :: q') fin := by
  have hmemg : (t, ms) ∈ g := lookupKey_mem g t ms h
  have hmemg0 : (t, ms) ∈ g0 := inv.sub.subset hmemg
  have hmsne : ms ≠ [] := wf.2.1 (t, ms) hmemg0
  have hak : afterKeyOf ms = t := afterKeyOf_eq_this g0 wf t ms hmemg0 hmsne
  have hmeq : metasOf g0 t = ms := metasOf_of_mem g0 wf.1 (t, ms) hmemg0
  have htk : t ∈ keysOf g := List.mem_map.mpr ⟨(t, ms), hmemg, rfl⟩
  have hafl : afterKeysOf
      (((childrenOf ms).reverse.map Visit.beforeChildren) ++
        Visit.afterChildren ms :: q') = t :: afterKeysOf q' := by
    rw [afterKeysOf_append, afterKeysOf_befores, afterKeysOf_after, hak]
    rfl
  exact {
    sub := (eraseKey_sublist g t).trans inv.sub
    afWf := by
      intro ms' hms'
      rcases List.mem_append.mp hms' with hA | hRest
      · rcases List.mem_map.mp hA with ⟨x, _, hx⟩
        cases hx
      · rcases List.mem_cons.mp hRest with hHead | hTail
        · cases hHead
          exact ⟨hmsne, by rw [hak, hmeq]⟩
        · exact inv.afWf ms' (List.mem_cons_of_mem _ hTail)
    afNodup := by
      rw [hafl]
      exact List.nodup_cons.mpr ⟨inv.disjGA t htk, inv.afNodup⟩
    disjGF := fun x hx =>
      inv.disjGF x ((keysOf_eraseKey g t x).mp hx).1
    disjGA := by
      intro x hx
      rw [hafl]
      rcases (keysOf_eraseKey g t x).mp hx with ⟨hxg, hxt⟩
      intro hmem
      rcases List.mem_cons.mp hmem with hEq | h2
      · exact hxt hEq
      · exact inv.disjGA x hxg h2
    disjAF := by
      intro y hy
      rw [hafl] at hy
      rcases List.mem_cons.mp hy with rfl | hy'
      · exact inv.disjGF y htk
      · exact inv.disjAF y hy'
    cover := by
      intro x hx
      rw [hafl]
      rcases inv.cover x hx with hxg | hxa | hxf
      · by_cases hxt : x = t
        · exact Or.inr (Or.inl (by simp [hxt]))
        · exact Or.inl ((keysOf_eraseKey g t x).mpr ⟨hxg, hxt⟩)
      · exact Or.inr (Or.inl (List.mem_cons_of_mem _ hxa))
      · exact Or.inr (Or.inr hxf)
    finNodup := inv.finNodup
    finSub := inv.finSub }

lemma linv_step_after (g0 g : Graph) (ms : List InjectMeta) (q' : List Visit)
    (fin : List TypeId) (inv : LInv g0 g (Visit.afterChildren ms :: q') fin) :
    LInv g0 g q' (fin ++ [afterKeyOf ms]) := by
  have hAf := inv.afWf ms (List.mem_cons_self _ _)
  have hkmem : afterKeyOf ms ∈ keysOf g0 :=
    mem_keys_of_metasOf_ne_nil g0 (afterKeyOf ms) (by rw [← hAf.2]; exact hAf.1)
  have hknotfin : afterKeyOf ms ∉ fin :=
    inv.disjAF (afterKeyOf ms) (by rw [afterKeysOf_after]; exact List.mem_cons_self _ _)
  have hknotaf : afterKeyOf ms ∉ afterKeysOf q' := by
    have h2 := inv.afNodup
    rw [afterKeysOf_after] at h2
    exact (List.nodup_cons.mp h2).1
  exact {
    sub := inv.sub
    afWf := fun ms' hms' => inv.afWf ms' (List.mem_cons_of_mem _ hms')
    afNodup := by
      have h2 := inv.afNodup
      rw [afterKeysOf_after] at h2
      exact (List.nodup_cons.mp h2).2
    disjGF := by
      intro x hx
      have h1 := inv.disjGF x hx
      have h2 := inv.disjGA x hx
      rw [afterKeysOf_after] at h2
      simp only [List.mem_append, List.mem_singleton]
      rintro (hf | hk)
      · exact h1 hf
      · exact h2 (hk ▸ List.mem_cons_self _ _)
    disjGA := by
      intro x hx
      have h2 := inv.disjGA x hx
      rw [afterKeysOf_after] at h2
      exact fun hm => h2 (List.mem_cons_of_mem _ hm)
    disjAF := by
      intro y hy
      have h1 := inv.disjAF y
        (by rw [afterKeysOf_after]; exact List.mem_cons_of_mem _ hy)
      simp only [List.mem_append, List.mem_singleton]
      rintro (hf | hk)
      · exact h1 hf
      · exact hknotaf (hk ▸ hy)
    cover := by
      intro x hx
      rcases inv.cover x hx with hxg | hxa | hxf
      · exact Or.inl hxg
      · rw [afterKeysOf_after] at hxa
        rcases List.mem_cons.mp hxa with rfl | hxa'
        · exact Or.inr (Or.inr (by simp))
        · exact Or.inr (Or.inl hxa')
      · exact Or.inr (Or.inr (by simp [hxf]))
    finNodup := by
      rw [List.nodup_append]
      exact ⟨inv.finNodup, List.nodup_singleton _, by simpa using hknotfin⟩
    finSub := by
      intro x hxm
      rcases List.mem_append.mp hxm with hf | hk
      · exact inv.finSub x hf
      · exact (List.mem_singleton.mp hk) ▸ hkmem }

lemma split_no_afters (B q1 above : List Visit) (ms : List InjectMeta)
    (below : List Visit) (hB : ∀ v ∈ B, ∃ c, v = Visit.beforeChildren c)
    (h : B ++ q1 = above ++ Visit.afterChildren ms :: below) :
    ∃ above1, above = B ++ above1 ∧ q1 = above1 ++ Visit.afterChildren ms :: below := by
  induction B generalizing above with
  | nil => exact ⟨above, by simp, by simpa using h⟩
  | cons b B' ih =>
    cases above with
    | nil =>
      rw [List.nil_append] at h
      injection h with h1 h2
      rcases hB b (List.mem_cons_self _ _) with ⟨c, hc⟩
      rw [hc] at h1
      cases h1
    | cons a as =>
      rw [List.cons_append, List.cons_append] at h
      injection h with h1 h2
      obtain ⟨above1, ha, hq⟩ := ih as (fun v hv => hB v (List.mem_cons_of_mem _ hv))
        (by exact h2)
      exact ⟨above1, by rw [ha, h1, List.cons_append], hq⟩

lemma split_befores_after (B : List Visit) (ms : List InjectMeta)
    (q1 above : List Visit) (ms' : List InjectMeta) (below : List Visit)
    (hB : ∀ v ∈ B, ∃ c, v = Visit.beforeChildren c)
    (h : B ++ Visit.afterChildren ms :: q1 = above ++ Visit.afterChildren ms' :: below) :
    (above = B ∧ ms' = ms ∧ below = q1) ∨
    (∃ above1, above = B ++ Visit.afterChildren ms :: above1 ∧
      q1 = above1 ++ Visit.afterChildren ms' :: below) := by
  obtain ⟨above1, ha, hq⟩ := split_no_afters B _ above ms' below hB h
  cases above1 with
  | nil =>
    rw [List.nil_append] at hq
    injection hq with h1 h2
    injection h1 with h1
    exact Or.inl ⟨by simpa using ha, h1.symm, h2.symm⟩
  | cons a as =>
    rw [List.cons_append] at hq
    injection hq with h1 h2
    exact Or.inr ⟨as, by rw [ha, ← h1], h2⟩

lemma aftersOk_single_before (g0 : Graph) (t : TypeId) (fin : List TypeId) :
    AftersOk g0 [Visit.beforeChildren t] fin := by
  intro above ms below heq d hd
  exfalso
  cases above with
  | nil =>
    rw [List.nil_append] at heq
    injection heq with h1 h2
    cases h1
  | cons a as =>
    rw [List.cons_append] at heq
    injection heq with h1 h2
    exact absurd h2 (by simp)

/-- The full DFS invariant: the light one plus stack structure, resolvedness
of pending dependencies, and the ordering property of the finalized keys. -/
structure HInv (g0 g : Graph) (q : List Visit) (fin : List TypeId) : Prop where
  base : LInv g0 g q fin
  bst : BStruct g0 q.reverse none
  aok : AftersOk g0 q fin
  good : GoodFin g0 fin

lemma parentOk_some_iff (g0 : Graph) (b c : TypeId) :
    parentOk g0 (some b) c ↔ EdgeKey g0 b c := Iff.rfl

lemma hinv_step_miss (g0 : Graph) (wf : WfGraph g0) (acyc : AcyclicKeys g0)
    (g : Graph) (t : TypeId) (q' : List Visit) (fin : List TypeId)
    (h : lookupKey g t = none)
    (inv : HInv g0 g (Visit.beforeChildren t :: q') fin) :
    HInv g0 g q' fin := by
  refine ⟨linv_drop_before g0 g t q' fin inv.base, ?_, ?_, inv.good⟩
  · have hb := inv.bst
    rw [List.reverse_cons] at hb
    exact ((bstruct_append g0 _ _ _).mp hb).1
  · intro above msB below hq' d hd
    have hmemq' : Visit.afterChildren msB ∈ q' := by
      rw [hq']
      exact List.mem_append.mpr (Or.inr (List.mem_cons_self _ _))
    have hold := inv.aok (Visit.beforeChildren t :: above) msB below
      (by rw [hq']; rfl) d hd
    rcases hold with hf | hnk | hbmem | hamem
    · exact Or.inl hf
    · exact Or.inr (Or.inl hnk)
    · rcases List.mem_cons.mp hbmem with hEq | hIn
      · injection hEq with hdt
        subst hdt
        by_cases hreg : d ∈ keysOf g0
        · rcases inv.base.cover d hreg with hkg | hka | hkf
          · exact absurd hkg ((lookupKey_eq_none_iff g d).mp h)
          · rw [afterKeysOf_before, hq', afterKeysOf_append, afterKeysOf_after] at hka
            rcases List.mem_append.mp hka with hup | hdown
            · exact Or.inr (Or.inr (Or.inr hup))
            · exfalso
              have hwfB := inv.base.afWf msB (List.mem_cons_of_mem _ hmemq')
              have hdd : d ∈ depsOfKey g0 (afterKeyOf msB) := by
                unfold depsOfKey
                rw [← hwfB.2]
                exact hd
              have hedgeB : EdgeKey g0 (afterKeyOf msB) d := hdd
              rcases List.mem_cons.mp hdown with hkey | hbelow
              · exact acyc d (Relation.TransGen.single (hkey ▸ hedgeB))
              · obtain ⟨msT, hmsT, hkT⟩ := (mem_afterKeysOf below d).mp hbelow
                have hb := inv.bst
                have hqrev : (Visit.beforeChildren d :: q').reverse =
                    below.reverse ++ ([Visit.afterChildren msB] ++
                      (above.reverse ++ [Visit.beforeChildren d])) := by
                  rw [hq']
                  simp [List.reverse_cons, List.reverse_append, List.append_assoc]
                rw [hqrev] at hb
                obtain ⟨hb1, hb2⟩ := (bstruct_append g0 _ _ _).mp hb
                obtain ⟨e, hce, hrtg⟩ :=
                  ctxReach g0 below.reverse none msT hb1 (List.mem_reverse.mpr hmsT)
                have hedgeE : EdgeKey g0 e (afterKeyOf msB) := by
                  have hpo := hb2.1
                  rw [hce] at hpo
                  exact hpo
                have htrans : Relation.TransGen (EdgeKey g0) d (afterKeyOf msB) :=
                  Relation.TransGen.tail' (hkT ▸ hrtg) hedgeE
                exact acyc d (htrans.tail hedgeB)
          · exact Or.inl hkf
        · exact Or.inr (Or.inl hreg)
      · exact Or.inr (Or.inr (Or.inl hIn))
    · exact Or.inr (Or.inr (Or.inr hamem))

lemma hinv_step_hit (g0 : Graph) (wf : WfGraph g0) (g : Graph) (t : TypeId)
    (ms : List InjectMeta) (q' : List Visit) (fin : List TypeId)
    (h : lookupKey g t = some ms)
    (inv : HInv g0 g (Visit.beforeChildren t :: q') fin) :
    HInv g0 (eraseKey g t)
      (((childrenOf ms).reverse.map Visit.beforeChildren) ++
        Visit.afterChildren ms :: q') fin := by
  have hmemg : (t, ms) ∈ g := lookupKey_mem g t ms h
  have hmemg0 : (t, ms) ∈ g0 := inv.base.sub.subset hmemg
  have hmsne : ms ≠ [] := wf.2.1 (t, ms) hmemg0
  have hak : afterKeyOf ms = t := afterKeyOf_eq_this g0 wf t ms hmemg0 hmsne
  have hmeq : metasOf g0 t = ms := metasOf_of_mem g0 wf.1 (t, ms) hmemg0
  refine ⟨linv_step_hit g0 wf g t ms q' fin h inv.base, ?_, ?_, inv.good⟩
  · have hb := inv.bst
    rw [List.reverse_cons] at hb
    obtain ⟨hB1, hBb⟩ := (bstruct_append g0 _ _ _).mp hb
    have hqrev : ((((childrenOf ms).reverse.map Visit.beforeChildren) ++
        Visit.afterChildren ms :: q')).reverse =
        q'.reverse ++ (Visit.afterChildren ms ::
          (childrenOf ms).map Visit.beforeChildren) := by
      simp [List.reverse_append, List.reverse_cons, List.map_reverse,
        List.append_assoc]
    rw [hqrev]
    refine (bstruct_append g0 _ _ _).mpr ⟨hB1, ?_⟩
    refine ⟨?_, ?_⟩
    · rw [hak]
      exact hBb.1
    · refine (bstruct_befores g0 _ _).mpr ?_
      intro c hc
      rw [hak]
      show c ∈ depsOfKey g0 t
      unfold depsOfKey
      rw [hmeq]
      exact hc
  · intro above ms' below heq d' hd'
    have hB : ∀ v ∈ (childrenOf ms).reverse.map Visit.beforeChildren,
        ∃ c, v = Visit.beforeChildren c := by
      intro v hv
      rcases List.mem_map.mp hv with ⟨c, _, rfl⟩
      exact ⟨c, rfl⟩
    rcases split_befores_after _ ms q' above ms' below hB heq with
      ⟨rfl, rfl, rfl⟩ | ⟨above1, rfl, hq1⟩
    · refine Or.inr (Or.inr (Or.inl ?_))
      exact List.mem_map.mpr ⟨d', List.mem_reverse.mpr hd', rfl⟩
    · have hold := inv.aok (Visit.beforeChildren t :: above1) ms' below
        (by rw [hq1]; rfl) d' hd'
      have hafk : afterKeysOf
          (((childrenOf ms).reverse.map Visit.beforeChildren) ++
            Visit.afterChildren ms :: above1) = t :: afterKeysOf above1 := by
        rw [afterKeysOf_append, afterKeysOf_befores, afterKeysOf_after, hak]
        rfl
      rcases hold with hf | hnk | hbm | ham
      · exact Or.inl hf
      · exact Or.inr (Or.inl hnk)
      · rcases List.mem_cons.mp hbm with hEq | hIn
        · injection hEq with hdt
          refine Or.inr (Or.inr (Or.inr ?_))
          rw [hafk, hdt]
          exact List.mem_cons_self _ _
        · refine Or.inr (Or.inr (Or.inl ?_))
          exact List.mem_append.mpr (Or.inr (List.mem_cons_of_mem _ hIn))
      · refine Or.inr (Or.inr (Or.inr ?_))
        rw [hafk]
        exact List.mem_cons_of_mem _ ham

lemma hinv_step_after (g0 : Graph) (g : Graph) (ms : List InjectMeta)
    (q' : List Visit) (fin : List TypeId)
    (inv : HInv g0 g (Visit.afterChildren ms :: q') fin) :
    HInv g0 g q' (fin ++ [afterKeyOf ms]) := by
  refine ⟨linv_step_after g0 g ms q' fin inv.base, ?_, ?_, ?_⟩
  · have hb := inv.bst
    rw [List.reverse_cons] at hb
    exact ((bstruct_append g0 _ _ _).mp hb).1
  · intro above ms' below hq1 d hd
    have hold := inv.aok (Visit.afterChildren ms :: above) ms' below
      (by rw [hq1]; rfl) d hd
    rcases hold with hf | hnk | hbm | ham
    · exact Or.inl (List.mem_append.mpr (Or.inl hf))
    · exact Or.inr (Or.inl hnk)
    · rcases List.mem_cons.mp hbm with hEq | hIn
      · exact absurd hEq (by simp)
      · exact Or.inr (Or.inr (Or.inl hIn))
    · rw [afterKeysOf_after] at ham
      rcases List.mem_cons.mp ham with rfl | hIn
      · exact Or.inl (List.mem_append.mpr (Or.inr (by simp)))
      · exact Or.inr (Or.inr (Or.inr hIn))
  · intro pre x suf heq2 d hd hdk
    rcases append_singleton_decomp fin (afterKeyOf ms) pre x suf heq2 with
      ⟨hsuf, hpre, hx⟩ | ⟨suf1, hsuf, hfin⟩
    · have hwfA := inv.base.afWf ms (List.mem_cons_self _ _)
      have hd2 : d ∈ childrenOf ms := by
        unfold depsOfKey at hd
        rw [hx, ← hwfA.2] at hd
        exact hd
      have hres := inv.aok [] ms q' rfl d hd2
      rcases hres with hf | hnk | hbm | ham
      · rw [hpre]
        exact hf
      · exact absurd hdk hnk
      · cases hbm
      · cases ham
    · exact inv.good pre x suf1 hfin d hd hdk

theorem dfsLoop_hinv (g0 : Graph) (wf : WfGraph g0) (acyc : AcyclicKeys g0)
    (g : Graph) (q : List Visit) (fin : List TypeId) (ord : List InjectMeta)
    (inv : HInv g0 g q fin) (hord : ord = fin.flatMap (metasOf g0)) :
    ∃ fin', HInv g0 (dfsLoop g q ord).1 [] fin' ∧
      (dfsLoop g q ord).2 = fin'.flatMap (metasOf g0) := by
  cases q with
  | nil =>
    rw [dfsLoop_nil_q]
    exact ⟨fin, inv, hord⟩
  | cons v q' =>
    cases v with
    | beforeChildren t =>
      cases h : lookupKey g t with
      | none =>
        rw [dfsLoop_before_miss g t q' ord h]
        exact dfsLoop_hinv g0 wf acyc g q' fin ord
          (hinv_step_miss g0 wf acyc g t q' fin h inv) hord
      | some ms =>
        rw [dfsLoop_before_hit g t ms q' ord h]
        exact dfsLoop_hinv g0 wf acyc (eraseKey g t) _ fin ord
          (hinv_step_hit g0 wf g t ms q' fin h inv) hord
    | afterChildren ms =>
      rw [dfsLoop_after]
      refine dfsLoop_hinv g0 wf acyc g q' (fin ++ [afterKeyOf ms]) (ord ++ ms)
        (hinv_step_after g0 g ms q' fin inv) ?_
      rw [hord, List.flatMap_append]
      have hAf := inv.base.afWf ms (List.mem_cons_self _ _)
      simp [hAf.2.symm]
termination_by (g.length, q.length)
decreasing_by
  all_goals first
  | exact Prod.Lex.left _ _ (eraseKey_length_lt _ _ _ (by assumption))
  | (apply Prod.Lex.right
     subst_vars
     simp)

theorem sortLoop_hinv (g0 : Graph) (wf : WfGraph g0) (acyc : AcyclicKeys g0)
    (g : Graph) (fin : List TypeId) (ord : List InjectMeta)
    (inv : HInv g0 g [] fin) (hord : ord = fin.flatMap (metasOf g0)) :
    ∃ fin', HInv g0 [] [] fin' ∧ sortLoop g ord = fin'.flatMap (metasOf g0) := by
  cases g with
  | nil => exact ⟨fin, inv, by rw [sortLoop_nil, hord]⟩
  | cons e rest =>
    obtain ⟨start, ms⟩ := e
    rw [sortLoop_cons start ms rest ord]
    have hlk : lookupKey ((start, ms) :: rest) start = some ms := by
      simp [lookupKey]
    have inv1 : HInv g0 ((start, ms) :: rest) [Visit.beforeChildren start] fin := by
      refine ⟨?_, ?_, aftersOk_single_before g0 start fin, inv.good⟩
      · exact {
          sub := inv.base.sub
          afWf := by
            intro ms' hms'
            rcases List.mem_cons.mp hms' with hEq | hIn
            · cases hEq
            · cases hIn
          afNodup := List.nodup_nil
          disjGF := inv.base.disjGF
          disjGA := fun t _ hmem => by cases hmem
          disjAF := fun t hmem => by cases hmem
          cover := by
            intro t ht
            rcases inv.base.cover t ht with h1 | h1 | h1
            · exact Or.inl h1
            · cases h1
            · exact Or.inr (Or.inr h1)
          finNodup := inv.base.finNodup
          finSub := inv.base.finSub }
      · exact ⟨trivial, trivial⟩
    obtain ⟨fin1, invR, hordR⟩ := dfsLoop_hinv g0 wf acyc ((start, ms) :: rest)
      [Visit.beforeChildren start] fin ord inv1 hord
    exact sortLoop_hinv g0 wf acyc _ fin1 _ invR hordR
termination_by g.length
decreasing_by
  subst_vars
  exact dfsLoop_start_lt _ start ms _ hlk

/-- The master specification of `topological_sort` on an acyclic graph: the
output is the concatenation of the per-key groups in an order `fin` that
visits every key exactly once and puts every registered dependency of a key
strictly before that key. -/
theorem topological_sort_spec (g0 : Graph) (wf : WfGraph g0)
    (acyc : AcyclicKeys g0) :
    ∃ fin, topological_sort g0 = fin.flatMap (metasOf g0) ∧
      fin.Nodup ∧ (∀ t, t ∈ fin ↔ t ∈ keysOf g0) ∧ GoodFin g0 fin := by
  have inv0 : HInv g0 g0 [] [] := by
    refine ⟨?_, trivial, ?_, ?_⟩
    · exact {
        sub := List.Sublist.refl g0
        afWf := fun ms hms => absurd hms (List.not_mem_nil _)
        afNodup := List.nodup_nil
        disjGF := fun t _ hmem => by cases hmem
        disjGA := fun t _ hmem => by cases hmem
        disjAF := fun t hmem => by cases hmem
        cover := fun t ht => Or.inl ht
        finNodup := List.nodup_nil
        finSub := fun t hmem => by cases hmem }
    · intro above ms below heq d hd
      exact absurd (congrArg List.length heq) (by simp; omega)
    · intro pre t suf heq d hd hdk
      exact absurd (congrArg List.length heq) (by simp; omega)
  obtain ⟨fin', invF, heq⟩ := sortLoop_hinv g0 wf acyc g0 [] [] inv0 rfl
  refine ⟨fin', by rw [topological_sort, heq], invF.base.finNodup, ?_, invF.good⟩
  intro t
  constructor
  · exact invF.base.finSub t
  · intro ht
    rcases invF.base.cover t ht with h1 | h1 | h1
    · simp [keysOf] at h1
    · cases h1
    · exact h1

lemma mem_metasOf_this (g0 : Graph) (wf : WfGraph g0) (t : TypeId)
    (m : InjectMeta) (hm : m ∈ metasOf g0 t) : m.this = t := by
  unfold metasOf at hm
  cases hl : lookupKey g0 t with
  | none => rw [hl] at hm; cases hm
  | some ms =>
    rw [hl] at hm
    exact wf.2.2 (t, ms) (lookupKey_mem g0 t ms hl) m hm

lemma prefix_of_not_mem_left (A rest pre suf : List InjectMeta) (m : InjectMeta)
    (h : A ++ rest = pre ++ m :: suf) (hm : m ∉ A) : List.IsPrefix A pre := by
  have hlen : A.length ≤ pre.length := by
    by_contra hlt
    push_neg at hlt
    have hidx : (pre ++ m :: suf)[pre.length]? = some m := by
      rw [List.getElem?_append_right (le_refl _)]
      simp
    rw [← h] at hidx
    rw [List.getElem?_append_left hlt] at hidx
    exact hm (List.getElem?_mem hidx)
  have hA : A = (pre ++ m :: suf).take A.length := by
    rw [← h, List.take_left]
  rw [List.take_append_of_le_length hlen] at hA
  exact hA ▸ List.take_prefix _ _

lemma acyclic_of_rank (g : Graph) (rank : TypeId → Nat)
    (h : ∀ e ∈ g, ∀ m ∈ e.2, ∀ d ∈ m.dependencies, rank d < rank e.1) :
    AcyclicKeys g := by
  have hedge : ∀ a b, EdgeKey g a b → rank b < rank a := by
    intro a b hab
    unfold EdgeKey depsOfKey childrenOf at hab
    obtain ⟨m, hm, hbm⟩ := List.mem_flatMap.mp hab
    unfold metasOf at hm
    cases hl : lookupKey g a with
    | none => rw [hl] at hm; cases hm
    | some ms =>
      rw [hl] at hm
      exact h (a, ms) (lookupKey_mem g a ms hl) m hm b hbm
  intro a hcyc
  have hmono : ∀ x y, Relation.TransGen (EdgeKey g) x y → rank y < rank x := by
    intro x y hxy
    induction hxy with
    | single h1 => exact hedge _ _ h1
    | tail h1 h2 ih => exact lt_trans (hedge _ _ h2) ih
  exact lt_irrefl _ (hmono a a hcyc)

lemma sorted_deps_before (g0 : Graph) (wf : WfGraph g0)
    (acyc : AcyclicKeys g0) (pre : List InjectMeta) (m : InjectMeta)
    (suf : List InjectMeta) (hsort : topological_sort g0 = pre ++ m :: suf)
    (d : TypeId) (hd : d ∈ m.dependencies) (m' : InjectMeta)
    (hm' : m' ∈ allMetas g0) (hthis : m'.this = d) : m' ∈ pre := by
  obtain ⟨fin, hrep, hnd, hmemiff, hgood⟩ := topological_sort_spec g0 wf acyc
  have hmmem : m ∈ fin.flatMap (metasOf g0) := by
    rw [← hrep, hsort]
    simp
  obtain ⟨t, htfin, hmt⟩ := List.mem_flatMap.mp hmmem
  have hmthis : m.this = t := mem_metasOf_this g0 wf t m hmt
  have hddeps : d ∈ depsOfKey g0 t := by
    unfold depsOfKey childrenOf
    exact List.mem_flatMap.mpr ⟨m, hmt, hd⟩
  obtain ⟨e, he, hm'e⟩ := List.mem_flatMap.mp hm'
  have he1 : e.1 = d := by rw [← wf.2.2 e he m' hm'e, hthis]
  have hm'metas : m' ∈ metasOf g0 d := by
    rw [← he1, metasOf_of_mem g0 wf.1 e he]
    exact hm'e
  have hdkeys : d ∈ keysOf g0 := by
    rw [← he1]
    exact List.mem_map.mpr ⟨e, he, rfl⟩
  obtain ⟨p, s, hfps⟩ := List.append_of_mem htfin
  have hdp : d ∈ p := hgood p t s hfps d hddeps hdkeys
  have htnotp : t ∉ p := by
    rw [hfps] at hnd
    have := (List.nodup_append.mp hnd).2.2
    intro htp
    exact this htp (List.mem_cons_self _ _)
  have hm'A : m' ∈ p.flatMap (metasOf g0) := List.mem_flatMap.mpr ⟨d, hdp, hm'metas⟩
  have hmnotA : m ∉ p.flatMap (metasOf g0) := by
    intro hmem
    obtain ⟨t', ht'p, hmt'⟩ := List.mem_flatMap.mp hmem
    have : m.this = t' := mem_metasOf_this g0 wf t' m hmt'
    rw [hmthis] at this
    exact htnotp (this ▸ ht'p)
  have hsplit : p.flatMap (metasOf g0) ++ ((t :: s).flatMap (metasOf g0)) =
      pre ++ m :: suf := by
    rw [← List.flatMap_append, ← hfps, ← hrep, hsort]
  have hpref := prefix_of_not_mem_left _ _ pre suf m hsplit hmnotA
  exact hpref.subset hm'A

/-- C1: On an acyclic descriptor set, the construction order produced by
`InjectorBuilder::topological_sort` is a true topological order: whenever the
order decomposes as `pre ++ m :: suf`, every registered meta of every
dependency of `m` already lies in `pre`.  Construction
(`build_from_metadata`) executes factories and pushes arena values exactly in
this list order, so every dependency's construction index precedes its
dependent's. -/
theorem c1_topological_order (g0 : Graph) (wf : WfGraph g0)
    (acyc : AcyclicKeys g0) (pre : List InjectMeta) (m : InjectMeta)
    (suf : List InjectMeta) (hsort : topological_sort g0 = pre ++ m :: suf)
    (d : TypeId) (hd : d ∈ m.dependencies) (m' : InjectMeta)
    (hm' : m' ∈ allMetas g0) (hthis : m'.this = d) : m' ∈ pre :=
  sorted_deps_before g0 wf acyc pre m suf hsort d hd m' hm' hthis

/-- Fuel bound for one DFS: one unit per queue entry that can ever appear. -/
def graphWeight (g : Graph) : Nat :=
  (g.map (fun e => 1 + (childrenOf e.2).length)).sum

/-- Executable twin of `dfsLoop` by structural recursion on fuel. -/
def dfsLoopF (fuel : Nat) (g : Graph) (q : List Visit)
    (order : List InjectMeta) : Graph × List InjectMeta :=
  match fuel with
  | 0 => (g, order)
  | fuel + 1 =>
    match q with
    | [] => (g, order)
    | .beforeChildren t :: q' =>
      match lookupKey g t with
      | none => dfsLoopF fuel g q' order
      | some ms =>
        dfsLoopF fuel (eraseKey g t)
          (((childrenOf ms).reverse.map Visit.beforeChildren) ++
            Visit.afterChildren ms :: q') order
    | .afterChildren ms :: q' => dfsLoopF fuel g q' (order ++ ms)

/-- Executable twin of `sortLoop`. -/
def sortLoopF (fuel : Nat) (g : Graph) (order : List InjectMeta) :
    List InjectMeta :=
  match fuel with
  | 0 => order
  | fuel + 1 =>
    match g with
    | [] => order
    | (start, _) :: _ =>
      let r := dfsLoopF (1 + graphWeight g) g [Visit.beforeChildren start] order
      sortLoopF fuel r.1 r.2

/-- Executable twin of `topological_sort`. -/
def topological_sortF (g : Graph) : List InjectMeta := sortLoopF g.length g []

lemma graphWeight_sublist_le (g' g : Graph) (h : List.Sublist g' g) :
    graphWeight g' ≤ graphWeight g := by
  unfold graphWeight
  induction h with
  | slnil => exact le_refl _
  | cons e hsub ih => simpa using le_trans ih (by simp)
  | cons₂ e hsub ih => simpa using ih

lemma graphWeight_eraseKey (g : Graph) (t : TypeId) (ms : List InjectMeta)
    (h : lookupKey g t = some ms) :
    graphWeight (eraseKey g t) + (1 + (childrenOf ms).length) ≤ graphWeight g := by
  induction g with
  | nil => simp [lookupKey] at h
  | cons e rest ih =>
    by_cases het : e.1 = t
    · have hms : ms = e.2 := by
        unfold lookupKey at h
        rw [List.find?_cons_of_pos _ (by simp [het])] at h
        simpa using h.symm
      have herase : eraseKey (e :: rest) t = eraseKey rest t := by
        unfold eraseKey
        rw [List.filter_cons_of_neg]
        simp [het]
      rw [herase, hms]
      have hle : graphWeight (eraseKey rest t) ≤ graphWeight rest :=
        graphWeight_sublist_le _ _ (eraseKey_sublist rest t)
      unfold graphWeight at *
      simp only [List.map_cons, List.sum_cons]
      omega
    · have hlk : lookupKey rest t = some ms := by
        unfold lookupKey at h ⊢
        rw [List.find?_cons_of_neg _ (by simp [het])] at h
        exact h
      have herase : eraseKey (e :: rest) t = e :: eraseKey rest t := by
        unfold eraseKey
        rw [List.filter_cons_of_pos]
        simp [het]
      rw [herase]
      have := ih hlk
      unfold graphWeight at *
      simp only [List.map_cons, List.sum_cons]
      omega

lemma dfsLoopF_eq (fuel : Nat) (g : Graph) (q : List Visit)
    (order : List InjectMeta) (hf : q.length + graphWeight g ≤ fuel) :
    dfsLoopF fuel g q order = dfsLoop g q order := by
  induction fuel generalizing g q order with
  | zero =>
    have hq : q = [] := by
      cases q with
      | nil => rfl
      | cons v q' => simp at hf
    rw [hq, dfsLoop_nil_q]
    rfl
  | succ fuel ih =>
    cases q with
    | nil => rw [dfsLoop_nil_q]; rfl
    | cons v q' =>
      cases v with
      | beforeChildren t =>
        rw [dfsLoopF]
        cases h : lookupKey g t with
        | none =>
          rw [dfsLoop_before_miss g t q' order h]
          refine ih g q' order ?_
          simp only [List.length_cons] at hf
          omega
        | some ms =>
          rw [dfsLoop_before_hit g t ms q' order h]
          refine ih _ _ order ?_
          have hw := graphWeight_eraseKey g t ms h
          simp only [List.length_append, List.length_cons, List.length_map,
            List.length_reverse] at hf ⊢
          omega
      | afterChildren ms =>
        rw [dfsLoopF, dfsLoop_after]
        refine ih g q' (order ++ ms) ?_
        simp only [List.length_cons] at hf
        omega

lemma sortLoopF_eq (fuel : Nat) (g : Graph) (order : List InjectMeta)
    (hf : g.length ≤ fuel) : sortLoopF fuel g order = sortLoop g order := by
  induction fuel generalizing g order with
  | zero =>
    have hg : g = [] := by
      cases g with
      | nil => rfl
      | cons e rest => simp at hf
    rw [hg, sortLoop_nil]
    rfl
  | succ fuel ih =>
    cases g with
    | nil => rw [sortLoop_nil]; rfl
    | cons e rest =>
      obtain ⟨start, ms⟩ := e
      rw [sortLoopF, sortLoop_cons]
      have hdfs : dfsLoopF (1 + graphWeight ((start, ms) :: rest))
          ((start, ms) :: rest) [Visit.beforeChildren start] order =
          dfsLoop ((start, ms) :: rest) [Visit.beforeChildren start] order := by
        refine dfsLoopF_eq _ _ _ _ ?_
        simp
      rw [hdfs]
      refine ih _ _ ?_
      have hlt := dfsLoop_start_lt ((start, ms) :: rest) start ms order
        (by simp [lookupKey])
      simp only [List.length_cons] at hlt hf ⊢
      omega

lemma topological_sortF_eq (g : Graph) : topological_sortF g = topological_sort g := by
  unfold topological_sortF topological_sort
  exact sortLoopF_eq g.length g [] (le_refl _)

/-- Witness for C1 at a concrete two-descriptor chain. -/
theorem c1_topological_order_witness :
    WfGraph (collectMulti [⟨2, "Y", [1], false, 12⟩, ⟨1, "X", [], false, 11⟩]) ∧
    (⟨1, "X", [], false, 11⟩ : InjectMeta) ∈
      ([⟨1, "X", [], false, 11⟩] : List InjectMeta) := by
  refine ⟨⟨by decide, by decide, by decide⟩, ?_⟩
  exact c1_topological_order
    (collectMulti [⟨2, "Y", [1], false, 12⟩, ⟨1, "X", [], false, 11⟩])
    ⟨by decide, by decide, by decide⟩
    (acyclic_of_rank _ (fun t => t) (by decide))
    [⟨1, "X", [], false, 11⟩] ⟨2, "Y", [1], false, 12⟩ []
    (by rw [← topological_sortF_eq]; decide) 1 (by decide)
    ⟨1, "X", [], false, 11⟩ (by decide) rfl

/-- Position of the single-valued index entry for `t` after processing the
metas `done` starting at arena slot `k`: the source's `HashMap::insert`
overwrites, so the last non-multi meta with identity `t` wins. -/
def singleIdxFrom (k : Nat) (done : List InjectMeta) (t : TypeId) : Option Nat :=
  match done with
  | [] => none
  | m :: rest =>
    match singleIdxFrom (k + 1) rest t with
    | some p => some p
    | none =>
      if m.is_multi_binding = false ∧ m.this = t then some k else none

/-- Position list of the multi-valued index entry for `t` after processing
`done` starting at slot `k`: appended in push order. -/
def multiIdxFrom (k : Nat) (done : List InjectMeta) (t : TypeId) : List Nat :=
  match done with
  | [] => []
  | m :: rest =>
    (if m.is_multi_binding = true ∧ m.this = t then [k] else []) ++
      multiIdxFrom (k + 1) rest t

/-- The multi index has an entry exactly when some multi meta for `t` was
pushed (`entry().or_insert_with(Vec::new)` creates it on first push). -/
def multiIdxOpt (done : List InjectMeta) (t : TypeId) : Option (List Nat) :=
  match multiIdxFrom 0 done t with
  | [] => none
  | l => some l

/-- Relation between an injector state and the list of metas already built
into it (starting from the empty injector). -/
structure InjInv (done : List InjectMeta) (inj : Injector) : Prop where
  itemsEq : inj.items.items = done.map mkValue
  singleEq : ∀ t, lookupIndex inj.index t = singleIdxFrom 0 done t
  multiEq : ∀ t, lookupMulti inj.multi_bindings_index t = multiIdxOpt done t

lemma injInv_empty : InjInv [] emptyInjector := by
  refine ⟨rfl, ?_, ?_⟩
  · intro t
    rfl
  · intro t
    rfl

lemma singleIdxFrom_concat (k : Nat) (l : List InjectMeta) (m : InjectMeta)
    (t : TypeId) :
    singleIdxFrom k (l ++ [m]) t =
      if m.is_multi_binding = false ∧ m.this = t then some (k + l.length)
      else singleIdxFrom k l t := by
  induction l generalizing k with
  | nil =>
    simp only [List.nil_append, List.length_nil, Nat.add_zero]
    rw [singleIdxFrom]
    rw [singleIdxFrom]
    rw [singleIdxFrom]
  | cons m0 rest ih =>
    rw [List.cons_append, singleIdxFrom, ih (k + 1)]
    by_cases hc : m.is_multi_binding = false ∧ m.this = t
    · simp only [hc, if_true]
      have harith : k + 1 + rest.length = k + (rest.length + 1) := by omega
      rw [harith]
      simp
    · simp only [hc, if_false]
      rw [singleIdxFrom]

lemma multiIdxFrom_concat (k : Nat) (l : List InjectMeta) (m : InjectMeta)
    (t : TypeId) :
    multiIdxFrom k (l ++ [m]) t =
      multiIdxFrom k l t ++
        (if m.is_multi_binding = true ∧ m.this = t then [k + l.length] else []) := by
  induction l generalizing k with
  | nil =>
    simp only [List.nil_append, List.length_nil, Nat.add_zero]
    rw [multiIdxFrom]
    rw [multiIdxFrom]
    rw [multiIdxFrom]
    simp
  | cons m0 rest ih =>
    rw [List.cons_append, multiIdxFrom, ih (k + 1)]
    rw [multiIdxFrom]
    have harith : k + 1 + rest.length = k + (rest.length + 1) := by omega
    rw [harith]
    simp [List.append_assoc]

section AssocLemmas

variable {β : Type}

lemma lookupAssoc_map_replace (l : List (TypeId × β)) (t : TypeId) (g : β → β)
    (x : TypeId) :
    ((l.map (fun e => if e.1 == t then (e.1, g e.2) else e)).find?
        (fun e => e.1 == x)).map Prod.snd =
      if x = t then ((l.find? (fun e => e.1 == x)).map Prod.snd).map g
      else (l.find? (fun e => e.1 == x)).map Prod.snd := by
  induction l with
  | nil => by_cases hxt : x = t <;> simp [hxt]
  | cons e rest ih =>
    rw [List.map_cons]
    by_cases het : e.1 = t
    · by_cases hxt : x = t
      · subst hxt
        rw [List.find?_cons_of_pos _ (by simp [het]),
          List.find?_cons_of_pos _ (by simp [het])]
        simp [het]
      · have hnex : e.1 ≠ x := fun hEq => hxt (by rw [← hEq, het])
        rw [List.find?_cons_of_neg _ (by simp [het, hnex]; exact fun hEq => hxt hEq.symm),
          List.find?_cons_of_neg _ (by simp [hnex])]
        simpa [hxt] using ih
    · by_cases hex : e.1 = x
      · have hxt : x ≠ t := fun hEq => het (hex.trans hEq)
        rw [List.find?_cons_of_pos _ (by simp [het, hex, hxt]),
          List.find?_cons_of_pos _ (by simp [hex])]
        simp [het, hxt]
      · rw [List.find?_cons_of_neg _ (by simp [het, hex]),
          List.find?_cons_of_neg _ (by simp [hex])]
        exact ih

lemma lookupAssoc_append_single (l : List (TypeId × β)) (t : TypeId) (v : β)
    (x : TypeId) (habs : l.find? (fun e => e.1 == t) = none) :
    ((l ++ [(t, v)]).find? (fun e => e.1 == x)).map Prod.snd =
      if x = t then some v
      else (l.find? (fun e => e.1 == x)).map Prod.snd := by
  rw [List.find?_append]
  by_cases hxt : x = t
  · subst hxt
    have hfl : l.find? (fun e => e.1 == x) = none := habs
    rw [hfl]
    simp
  · have : ([(t, v)].find? (fun e => e.1 == x)) = none := by
      rw [List.find?_cons_of_neg _ (by simp; exact fun hEq => hxt hEq.symm)]
      rfl
    rw [this]
    simp [hxt]

end AssocLemmas

lemma lookupIndex_insert (idx : List (TypeId × Nat)) (t : TypeId) (p : Nat)
    (x : TypeId) :
    lookupIndex (indexInsert idx t p) x =
      if x = t then some p else lookupIndex idx x := by
  unfold indexInsert lookupIndex
  by_cases hex : (idx.find? (fun e => e.1 == t)).isSome
  · rw [if_pos hex]
    have h := lookupAssoc_map_replace idx t (fun _ => p) x
    rw [h]
    by_cases hxt : x = t
    · subst hxt
      obtain ⟨e, he⟩ := Option.isSome_iff_exists.mp hex
      rw [he]
      simp
    · simp [hxt]
  · rw [if_neg hex]
    exact lookupAssoc_append_single idx t p x (Option.not_isSome_iff_eq_none.mp hex)

lemma lookupMulti_append (idx : List (TypeId × List Nat)) (t : TypeId) (p : Nat)
    (x : TypeId) :
    lookupMulti (multiAppend idx t p) x =
      if x = t then some ((lookupMulti idx t).getD [] ++ [p])
      else lookupMulti idx x := by
  unfold multiAppend lookupMulti
  by_cases hex : (idx.find? (fun e => e.1 == t)).isSome
  · rw [if_pos hex]
    have h := lookupAssoc_map_replace idx t (fun v => v ++ [p]) x
    rw [h]
    by_cases hxt : x = t
    · subst hxt
      obtain ⟨e, he⟩ := Option.isSome_iff_exists.mp hex
      rw [he]
      simp
    · simp [hxt]
  · rw [if_neg hex]
    rw [lookupAssoc_append_single idx t [p] x (Option.not_isSome_iff_eq_none.mp hex)]
    by_cases hxt : x = t
    · subst hxt
      rw [Option.not_isSome_iff_eq_none.mp hex]
      simp
    · simp [hxt]

lemma lookupKey_insertMultiEntry (g : Graph) (m : InjectMeta) (x : TypeId) :
    lookupKey (insertMultiEntry g m) x =
      if x = m.this then some ((lookupKey g m.this).getD [] ++ [m])
      else lookupKey g x := by
  unfold insertMultiEntry lookupKey
  by_cases hex : (g.find? (fun e => e.1 == m.this)).isSome
  · rw [if_pos hex]
    have h := lookupAssoc_map_replace g m.this (fun v => v ++ [m]) x
    rw [h]
    by_cases hxt : x = m.this
    · subst hxt
      obtain ⟨e, he⟩ := Option.isSome_iff_exists.mp hex
      rw [he]
      simp
    · simp [hxt]
  · rw [if_neg hex]
    rw [lookupAssoc_append_single g m.this [m] x (Option.not_isSome_iff_eq_none.mp hex)]
    by_cases hxt : x = m.this
    · subst hxt
      rw [Option.not_isSome_iff_eq_none.mp hex]
      simp
    · simp [hxt]

/-- Registration order is preserved inside each key's group:
`MultiMap::collect` groups a meta list by identity, and the group of `t` is
exactly the registration-ordered sublist of metas with identity `t`. -/
lemma collectMulti_metasOf (l : List InjectMeta) (t : TypeId) :
    metasOf (collectMulti l) t = l.filter (fun m => m.this == t) := by
  suffices h : ∀ g, metasOf (l.foldl insertMultiEntry g) t =
      metasOf g t ++ l.filter (fun m => m.this == t) by
    have := h []
    unfold collectMulti
    rw [this]
    simp [metasOf, lookupKey]
  induction l with
  | nil => intro g; simp
  | cons m rest ih =>
    intro g
    rw [List.foldl_cons, ih]
    unfold metasOf
    rw [lookupKey_insertMultiEntry]
    by_cases hmt : t = m.this
    · subst hmt
      rw [if_pos rfl]
      rw [List.filter_cons_of_pos (by simp)]
      simp
    · rw [if_neg (by exact hmt)]
      rw [List.filter_cons_of_neg (by simp; exact fun hEq => hmt hEq.symm)]

lemma singleIdx_spec (done : List InjectMeta) (t : TypeId) (p : Nat)
    (h : singleIdxFrom 0 done t = some p) :
    p < done.length ∧ ∃ m, done[p]? = some m ∧ m.this = t ∧
      m.is_multi_binding = false := by
  induction done using List.reverseRecOn with
  | nil => rw [singleIdxFrom] at h; cases h
  | append_singleton l m ih =>
    rw [singleIdxFrom_concat] at h
    by_cases hc : m.is_multi_binding = false ∧ m.this = t
    · rw [if_pos hc] at h
      injection h with hp
      subst hp
      refine ⟨by simp, m, ?_, hc.2, hc.1⟩
      simpa using List.getElem?_concat_length l m
    · rw [if_neg hc] at h
      obtain ⟨hlt, m', hm', hthis, hmulti⟩ := ih h
      refine ⟨by simp; omega, m', ?_, hthis, hmulti⟩
      rw [List.getElem?_append_left hlt]
      exact hm'

lemma multiIdx_mem_spec (done : List InjectMeta) (t : TypeId) (p : Nat)
    (h : p ∈ multiIdxFrom 0 done t) :
    p < done.length ∧ ∃ m, done[p]? = some m ∧ m.this = t ∧
      m.is_multi_binding = true := by
  induction done using List.reverseRecOn with
  | nil => rw [multiIdxFrom] at h; cases h
  | append_singleton l m ih =>
    rw [multiIdxFrom_concat] at h
    rcases List.mem_append.mp h with hl | hr
    · obtain ⟨hlt, m', hm', hthis, hmulti⟩ := ih hl
      refine ⟨by simp; omega, m', ?_, hthis, hmulti⟩
      rw [List.getElem?_append_left hlt]
      exact hm'
    · by_cases hc : m.is_multi_binding = true ∧ m.this = t
      · rw [if_pos hc] at hr
        have hp : p = l.length := by simpa using hr
        subst hp
        refine ⟨by simp, m, ?_, hc.2, hc.1⟩
        simpa using List.getElem?_concat_length l m
      · rw [if_neg hc] at hr
        cases hr

lemma singleIdx_isSome_of_provider (done : List InjectMeta) (t : TypeId)
    (m' : InjectMeta) (hm : m' ∈ done) (hthis : m'.this = t)
    (hmulti : m'.is_multi_binding = false) :
    ∃ p, singleIdxFrom 0 done t = some p := by
  induction done using List.reverseRecOn with
  | nil => cases hm
  | append_singleton l m ih =>
    rw [singleIdxFrom_concat]
    by_cases hc : m.is_multi_binding = false ∧ m.this = t
    · exact ⟨l.length, by rw [if_pos hc]; simp⟩
    · rw [if_neg hc]
      rcases List.mem_append.mp hm with hl | hr
      · exact ih hl
      · exfalso
        have hmm : m' = m := List.mem_singleton.mp hr
        subst hmm
        exact hc ⟨hmulti, hthis⟩

lemma except_mapM_ok_of_forall {α β : Type} (f : α → Except BuildError β)
    (l : List α) (h : ∀ a ∈ l, ∃ b, f a = .ok b) :
    ∃ bs, l.mapM f = Except.ok bs := by
  induction l with
  | nil => exact ⟨[], rfl⟩
  | cons a rest ih =>
    obtain ⟨b, hb⟩ := h a (List.mem_cons_self _ _)
    obtain ⟨bs, hbs⟩ := ih (fun x hx => h x (List.mem_cons_of_mem _ hx))
    refine ⟨b :: bs, ?_⟩
    rw [List.mapM_cons, hb, hbs]
    rfl

lemma except_mapM_forall_of_ok {α β : Type} (f : α → Except BuildError β)
    (l : List α) (bs : List β) (h : l.mapM f = Except.ok bs) :
    ∀ a ∈ l, ∃ b, f a = .ok b := by
  induction l generalizing bs with
  | nil => intro a ha; cases ha
  | cons a rest ih =>
    rw [List.mapM_cons] at h
    cases hfa : f a with
    | error e =>
      rw [hfa] at h
      exact absurd (show (Except.error e : Except BuildError (List β)) = Except.ok bs from h)
        (by simp)
    | ok b =>
      rw [hfa] at h
      cases hrest : rest.mapM f with
      | error e =>
        rw [hrest] at h
        exact absurd (show (Except.error e : Except BuildError (List β)) = Except.ok bs from h)
          (by simp)
      | ok bs' =>
        intro x hx
        rcases List.mem_cons.mp hx with rfl | hx'
        · exact ⟨b, hfa⟩
        · exact ih bs' hrest x hx'

lemma injector_get_err (done : List InjectMeta) (inj : Injector) (t : TypeId)
    (inv : InjInv done inj) (h : singleIdxFrom 0 done t = none) :
    inj.get t = .error (.unableToGet t) := by
  unfold Injector.get
  rw [inv.singleEq, h]

lemma injector_get_ok (done : List InjectMeta) (inj : Injector) (t : TypeId)
    (p : Nat) (inv : InjInv done inj) (h : singleIdxFrom 0 done t = some p) :
    ∃ m, done[p]? = some m ∧ inj.get t = .ok (mkValue m) := by
  obtain ⟨hlt, m, hm, hthis, hmulti⟩ := singleIdx_spec done t p h
  refine ⟨m, hm, ?_⟩
  unfold Injector.get
  rw [inv.singleEq, h]
  have hstore : UnsafeStore.get inj.items p = some (mkValue m) := by
    unfold UnsafeStore.get
    rw [inv.itemsEq, List.getElem?_map, hm]
    rfl
  simp only [hstore]
  have htid : ((mkValue m).tid == t) = true := by simp [mkValue, hthis]
  rw [if_pos htid]

lemma runFactory_ok_of_deps (done : List InjectMeta) (inj : Injector)
    (m : InjectMeta) (inv : InjInv done inj)
    (h : ∀ d ∈ m.dependencies, ∃ p, singleIdxFrom 0 done d = some p) :
    runFactory m inj = .ok (mkValue m) := by
  unfold runFactory
  obtain ⟨vs, hvs⟩ := except_mapM_ok_of_forall (fun d => inj.get d) m.dependencies
    (by
      intro d hd
      obtain ⟨p, hp⟩ := h d hd
      obtain ⟨m', _, hok⟩ := injector_get_ok done inj d p inv hp
      exact ⟨mkValue m', hok⟩)
  rw [hvs]
  rfl

lemma runFactory_deps_of_ok (done : List InjectMeta) (inj : Injector)
    (m : InjectMeta) (v : Value) (inv : InjInv done inj)
    (h : runFactory m inj = .ok v) :
    (∀ d ∈ m.dependencies, ∃ p, singleIdxFrom 0 done d = some p) ∧
      v = mkValue m := by
  unfold runFactory at h
  cases hm : m.dependencies.mapM (fun d => inj.get d) with
  | error e =>
    rw [hm] at h
    exact absurd (show (Except.error e : Except BuildError Value) = Except.ok v from h)
      (by simp)
  | ok vs =>
    rw [hm] at h
    constructor
    · intro d hd
      obtain ⟨b, hb⟩ := except_mapM_forall_of_ok _ _ vs hm d hd
      cases hs : singleIdxFrom 0 done d with
      | none =>
        rw [injector_get_err done inj d inv hs] at hb
        cases hb
      | some p => exact ⟨p, rfl⟩
    · have : (Except.ok (mkValue m) : Except BuildError Value) = Except.ok v := h
      injection this with hv
      exact hv.symm

lemma except_bind_ok {β γ : Type} (x : β) (f : β → Except BuildError γ) :
    ((Except.ok x : Except BuildError β) >>= f) = f x := rfl

lemma build_and_store_ok (done : List InjectMeta) (inj : Injector)
    (m : InjectMeta) (inv : InjInv done inj)
    (h : ∀ d ∈ m.dependencies, ∃ p, singleIdxFrom 0 done d = some p) :
    ∃ inj', inj.build_and_store m = .ok inj' ∧ InjInv (done ++ [m]) inj' := by
  have hrf := runFactory_ok_of_deps done inj m inv h
  have hlen : inj.items.items.length = done.length := by
    rw [inv.itemsEq, List.length_map]
  unfold Injector.build_and_store
  rw [hrf]
  have htid : (mkValue m).tid == m.this := by simp [mkValue]
  simp only [htid, if_true]
  cases hmb : m.is_multi_binding with
  | true =>
    refine ⟨{ items := (UnsafeStore.push inj.items (mkValue m)).1,
              index := inj.index,
              multi_bindings_index := multiAppend inj.multi_bindings_index m.this
                (UnsafeStore.push inj.items (mkValue m)).2 }, ?_, ?_, ?_, ?_⟩
    · rw [except_bind_ok, if_pos htid, if_pos rfl]
      rfl
    · show (UnsafeStore.push inj.items (mkValue m)).1.items = (done ++ [m]).map mkValue
      unfold UnsafeStore.push
      rw [inv.itemsEq]
      simp
    · intro x
      show lookupIndex inj.index x = _
      rw [inv.singleEq, singleIdxFrom_concat]
      rw [if_neg (by simp [hmb])]
    · intro x
      show lookupMulti (multiAppend inj.multi_bindings_index m.this
        (UnsafeStore.push inj.items (mkValue m)).2) x = multiIdxOpt (done ++ [m]) x
      rw [lookupMulti_append]
      by_cases hxt : x = m.this
      · subst hxt
        rw [if_pos rfl]
        unfold multiIdxOpt
        rw [multiIdxFrom_concat, if_pos ⟨hmb, rfl⟩]
        rw [inv.multiEq]
        unfold multiIdxOpt
        have hpos : (UnsafeStore.push inj.items (mkValue m)).2 = done.length := hlen
        rw [hpos]
        cases hmf : multiIdxFrom 0 done m.this with
        | nil => simp [hmf]
        | cons a as => simp [hmf]
      · rw [if_neg hxt]
        rw [inv.multiEq]
        unfold multiIdxOpt
        rw [multiIdxFrom_concat, if_neg (by rintro ⟨_, hEq⟩; exact hxt hEq.symm)]
        simp
  | false =>
    refine ⟨{ items := (UnsafeStore.push inj.items (mkValue m)).1,
              index := indexInsert inj.index m.this
                (UnsafeStore.push inj.items (mkValue m)).2,
              multi_bindings_index := inj.multi_bindings_index }, ?_, ?_, ?_, ?_⟩
    · rw [except_bind_ok, if_pos htid, if_neg (by simp)]
      rfl
    · show (UnsafeStore.push inj.items (mkValue m)).1.items = (done ++ [m]).map mkValue
      unfold UnsafeStore.push
      rw [inv.itemsEq]
      simp
    · intro x
      show lookupIndex (indexInsert inj.index m.this
        (UnsafeStore.push inj.items (mkValue m)).2) x = _
      rw [lookupIndex_insert, singleIdxFrom_concat]
      have hpos : (UnsafeStore.push inj.items (mkValue m)).2 = done.length := by
        unfold UnsafeStore.push
        exact hlen
      by_cases hxt : x = m.this
      · subst hxt
        rw [if_pos rfl, if_pos ⟨hmb, rfl⟩, hpos]
        simp
      · rw [if_neg hxt, if_neg (by rintro ⟨_, hEq⟩; exact hxt hEq.symm)]
        exact inv.singleEq x
    · intro x
      show lookupMulti inj.multi_bindings_index x = _
      rw [inv.multiEq]
      unfold multiIdxOpt
      rw [multiIdxFrom_concat, if_neg (by simp [hmb])]
      simp

lemma build_and_store_of_ok (done : List InjectMeta) (inj : Injector)
    (m : InjectMeta) (inj' : Injector) (inv : InjInv done inj)
    (h : inj.build_and_store m = .ok inj') :
    (∀ d ∈ m.dependencies, ∃ p, singleIdxFrom 0 done d = some p) ∧
      InjInv (done ++ [m]) inj' := by
  have hdeps : ∀ d ∈ m.dependencies, ∃ p, singleIdxFrom 0 done d = some p := by
    unfold Injector.build_and_store at h
    cases hrf : runFactory m inj with
    | error e =>
      rw [hrf] at h
      exact absurd (show (Except.error e : Except BuildError Injector) = Except.ok inj' from h)
        (by simp)
    | ok v => exact (runFactory_deps_of_ok done inj m v inv hrf).1
  obtain ⟨inj2, heq2, hinv2⟩ := build_and_store_ok done inj m inv hdeps
  rw [h] at heq2
  injection heq2 with heq3
  rw [heq3]
  exact ⟨hdeps, hinv2⟩

lemma buildFromSorted_ok (metas : List InjectMeta) (done : List InjectMeta)
    (inj : Injector) (inv : InjInv done inj)
    (hprov : ∀ pre m suf, metas = pre ++ m :: suf → ∀ d ∈ m.dependencies,
      ∃ m', m' ∈ done ++ pre ∧ m'.this = d ∧ m'.is_multi_binding = false) :
    ∃ inj', buildFromSorted inj metas = .ok inj' ∧ InjInv (done ++ metas) inj' := by
  induction metas generalizing done inj with
  | nil => exact ⟨inj, rfl, by simpa using inv⟩
  | cons m rest ih =>
    have hdeps : ∀ d ∈ m.dependencies, ∃ p, singleIdxFrom 0 done d = some p := by
      intro d hd
      obtain ⟨m', hm', hthis, hmulti⟩ := hprov [] m rest rfl d hd
      exact singleIdx_isSome_of_provider done d m' (by simpa using hm') hthis hmulti
    obtain ⟨inj1, heq1, hinv1⟩ := build_and_store_ok done inj m inv hdeps
    obtain ⟨inj', heq', hinv'⟩ := ih (done ++ [m]) inj1 hinv1 (by
      intro pre m2 suf hsplit d hd
      obtain ⟨m', hm', hthis, hmulti⟩ := hprov (m :: pre) m2 suf (by simp [hsplit]) d hd
      refine ⟨m', ?_, hthis, hmulti⟩
      rcases List.mem_append.mp hm' with hdone | hpre
      · exact List.mem_append.mpr (Or.inl (List.mem_append.mpr (Or.inl hdone)))
      · rcases List.mem_cons.mp hpre with rfl | hpre'
        · exact List.mem_append.mpr (Or.inl (by simp))
        · exact List.mem_append.mpr (Or.inr hpre'))
    refine ⟨inj', ?_, by simpa [List.append_assoc] using hinv'⟩
    unfold buildFromSorted
    rw [heq1]
    exact heq'

lemma buildFromSorted_deps_of_ok (metas : List InjectMeta)
    (done : List InjectMeta) (inj : Injector) (inj' : Injector)
    (inv : InjInv done inj) (h : buildFromSorted inj metas = .ok inj') :
    ∀ pre m suf, metas = pre ++ m :: suf → ∀ d ∈ m.dependencies,
      ∃ m', m' ∈ done ++ pre ∧ m'.this = d ∧ m'.is_multi_binding = false := by
  induction metas generalizing done inj with
  | nil =>
    intro pre m suf hsplit
    exact absurd (congrArg List.length hsplit) (by simp; omega)
  | cons m0 rest ih =>
    intro pre m suf hsplit d hd
    unfold buildFromSorted at h
    cases hb : inj.build_and_store m0 with
    | error e =>
      rw [hb] at h
      cases h
    | ok inj1 =>
      rw [hb] at h
      obtain ⟨hdeps0, hinv1⟩ := build_and_store_of_ok done inj m0 inj1 inv hb
      cases pre with
      | nil =>
        rw [List.nil_append] at hsplit
        injection hsplit with hm hrest
        subst hm
        obtain ⟨p, hp⟩ := hdeps0 d hd
        obtain ⟨hlt, m', hm', hthis, hmulti⟩ := singleIdx_spec done d p hp
        exact ⟨m', by simpa using List.getElem?_mem hm', hthis, hmulti⟩
      | cons p0 pre' =>
        injection hsplit with hm hrest
        subst hm
        obtain ⟨m', hm', hthis, hmulti⟩ := ih (done ++ [m0]) inj1 hinv1 h pre' m suf hrest d hd
        refine ⟨m', ?_, hthis, hmulti⟩
        rcases List.mem_append.mp hm' with hin | hin
        · rcases List.mem_append.mp hin with h1 | h1
          · exact List.mem_append.mpr (Or.inl h1)
          · exact List.mem_append.mpr (Or.inr (by simpa using Or.inl (List.mem_singleton.mp h1)))
        · exact List.mem_append.mpr (Or.inr (List.mem_cons_of_mem _ hin))

lemma mem_keys_lookup (g : Graph) (hnd : (keysOf g).Nodup) (t : TypeId)
    (ht : t ∈ keysOf g) : ∃ ms, lookupKey g t = some ms ∧ ms ≠ [] ∨
      lookupKey g t = some ms := by
  rcases List.mem_map.mp ht with ⟨e, he, hfst⟩
  exact ⟨e.2, Or.inr (hfst ▸ lookupKey_of_mem g hnd e he)⟩

lemma build_ok_of_graph (g0 : Graph) (wf : WfGraph g0) (acyc : AcyclicKeys g0)
    (closed : ClosedGraph g0) (hds : DepsSingleValued g0) :
    ∃ inj, buildFromSorted emptyInjector (topological_sort g0) = .ok inj ∧
      InjInv (topological_sort g0) inj := by
  obtain ⟨inj, heq, hinv⟩ := buildFromSorted_ok (topological_sort g0) [] emptyInjector
    injInv_empty (by
      intro pre m suf hsplit d hd
      have hperm := topological_sort_perm_all g0 wf
      have hmall : m ∈ allMetas g0 := hperm.subset (by rw [hsplit]; simp)
      obtain ⟨e, he, hme⟩ := List.mem_flatMap.mp hmall
      have hdk : d ∈ keysOf g0 := closed e he m hme d hd
      rcases List.mem_map.mp hdk with ⟨e', he', hfst⟩
      have hlk : lookupKey g0 e'.1 = some e'.2 := lookupKey_of_mem g0 wf.1 e' he'
      have hmetas : metasOf g0 d = e'.2 := by
        unfold metasOf
        rw [hfst] at hlk
        rw [hlk]
        rfl
      have hne : e'.2 ≠ [] := wf.2.1 e' he'
      obtain ⟨m0, hm0⟩ := List.exists_mem_of_ne_nil e'.2 hne
      have hm0m : m0 ∈ metasOf g0 d := by rw [hmetas]; exact hm0
      have hthis : m0.this = d := mem_metasOf_this g0 wf d m0 hm0m
      have hmulti : m0.is_multi_binding = false := hds e he m hme d hd m0 hm0m
      have hpre : m0 ∈ pre := sorted_deps_before g0 wf acyc pre m suf hsplit d hd m0
        (List.mem_flatMap.mpr ⟨e', he', by rw [← hmetas]; exact hm0m⟩) hthis
      exact ⟨m0, by simpa using hpre, hthis, hmulti⟩)
  exact ⟨inj, heq, by simpa using hinv⟩

/-- C5: On an acyclic, closed descriptor set whose dependencies are
single-valued identities (always the case for derive-generated metadata),
the build succeeds, the arena ends up holding exactly one value per entry of
the construction order — each factory ran exactly once, pushing exactly one
value — and the construction order is a permutation of the registered metas:
no identity is built twice and none is skipped. -/
theorem c5_factories_run_once (g0 : Graph) (wf : WfGraph g0)
    (acyc : AcyclicKeys g0) (closed : ClosedGraph g0)
    (hds : DepsSingleValued g0) :
    ∃ inj, buildFromSorted emptyInjector (topological_sort g0) = .ok inj ∧
      inj.items.items = (topological_sort g0).map mkValue ∧
      (topological_sort g0).Perm (allMetas g0) := by
  obtain ⟨inj, heq, hinv⟩ := build_ok_of_graph g0 wf acyc closed hds
  exact ⟨inj, heq, hinv.itemsEq, topological_sort_perm_all g0 wf⟩

/-- Witness for C5 on a concrete two-descriptor chain. -/
theorem c5_factories_run_once_witness :
    WfGraph (collectMulti [⟨2, "B", [1], false, 22⟩, ⟨1, "A", [], false, 21⟩]) ∧
    ClosedGraph (collectMulti [⟨2, "B", [1], false, 22⟩, ⟨1, "A", [], false, 21⟩]) ∧
    ∃ inj, buildFromSorted emptyInjector
        (topological_sort (collectMulti
          [⟨2, "B", [1], false, 22⟩, ⟨1, "A", [], false, 21⟩])) = .ok inj ∧
      inj.items.items = (topological_sort (collectMulti
          [⟨2, "B", [1], false, 22⟩, ⟨1, "A", [], false, 21⟩])).map mkValue ∧
      (topological_sort (collectMulti
          [⟨2, "B", [1], false, 22⟩, ⟨1, "A", [], false, 21⟩])).Perm
        (allMetas (collectMulti [⟨2, "B", [1], false, 22⟩, ⟨1, "A", [], false, 21⟩])) := by
  refine ⟨⟨by decide, by decide, by decide⟩, by decide, ?_⟩
  exact c5_factories_run_once _ ⟨by decide, by decide, by decide⟩
    (acyclic_of_rank _ (fun t => t) (by decide)) (by decide) (by decide)

lemma mapM_fetch_multi (done : List InjectMeta) (consumed : List InjectMeta)
    (t : TypeId) :
    (multiIdxFrom consumed.length done t).mapM
      (fetchTO ⟨(consumed ++ done).map mkValue⟩ t) =
    Except.ok ((done.filter
      (fun m => m.is_multi_binding && m.this == t)).map mkValue) := by
  induction done generalizing consumed with
  | nil =>
    rw [multiIdxFrom]
    rfl
  | cons m rest ih =>
    rw [multiIdxFrom]
    have hassoc : consumed ++ m :: rest = (consumed ++ [m]) ++ rest := by simp
    have hk1 : consumed.length + 1 = (consumed ++ [m]).length := by simp
    by_cases hc : m.is_multi_binding = true ∧ m.this = t
    · rw [if_pos hc]
      have hfetch : fetchTO ⟨(consumed ++ m :: rest).map mkValue⟩ t consumed.length =
          Except.ok (mkValue m) := by
        unfold fetchTO UnsafeStore.get
        have hidx : ((consumed ++ m :: rest).map mkValue)[consumed.length]? =
            some (mkValue m) := by
          rw [List.map_append]
          rw [List.getElem?_append_right (by simp)]
          simp
        rw [hidx]
        have htt : ((mkValue m).tid == t) = true := by simp [mkValue, hc.2]
        simp only [if_pos htt]
      simp only [List.singleton_append]
      rw [List.mapM_cons, hfetch, hassoc, hk1, ih (consumed ++ [m])]
      rw [List.filter_cons_of_pos (by simp [hc.1, hc.2])]
      rfl
    · rw [if_neg hc]
      simp only [List.nil_append]
      rw [hassoc, hk1, ih (consumed ++ [m])]
      rw [List.filter_cons_of_neg (by
        simp only [Bool.and_eq_true, beq_iff_eq]
        exact fun hcontra => hc ⟨hcontra.1, hcontra.2⟩)]

lemma multiIdxFrom_length (k : Nat) (done : List InjectMeta) (t : TypeId) :
    (multiIdxFrom k done t).length =
      (done.filter (fun m => m.is_multi_binding && m.this == t)).length := by
  induction done generalizing k with
  | nil => rfl
  | cons m rest ih =>
    rw [multiIdxFrom]
    by_cases hc : m.is_multi_binding = true ∧ m.this = t
    · rw [if_pos hc, List.filter_cons_of_pos (by simp [hc.1, hc.2])]
      simp [ih]
    · rw [if_neg hc, List.filter_cons_of_neg (by
        simp only [Bool.and_eq_true, beq_iff_eq]
        exact fun hcontra => hc ⟨hcontra.1, hcontra.2⟩)]
      simp [ih]

lemma getAll_of_inv (done : List InjectMeta) (inj : Injector) (t : TypeId)
    (inv : InjInv done inj) (hne : multiIdxFrom 0 done t ≠ []) :
    inj.get_all_trait_objects t =
      .ok ((done.filter (fun m => m.is_multi_binding && m.this == t)).map mkValue) := by
  unfold Injector.get_all_trait_objects
  rw [inv.multiEq]
  unfold multiIdxOpt
  have hitems : inj.items = UnsafeStore.mk (done.map mkValue) := by
    have h1 := inv.itemsEq
    cases hstruct : inj.items with
    | mk its =>
      rw [hstruct] at h1
      simp at h1
      rw [h1]
  cases hmf : multiIdxFrom 0 done t with
  | nil => exact absurd hmf hne
  | cons a as =>
    have hmapm := mapM_fetch_multi done [] t
    rw [List.nil_append] at hmapm
    rw [show (([] : List InjectMeta)).length = 0 from rfl] at hmapm
    rw [hmf] at hmapm
    rw [← hitems] at hmapm
    exact hmapm

lemma filter_flatMap_blocks (p : InjectMeta → Bool) (fin : List TypeId)
    (f : TypeId → List InjectMeta) :
    (fin.flatMap f).filter p = fin.flatMap (fun k => (f k).filter p) := by
  induction fin with
  | nil => rfl
  | cons k rest ih =>
    rw [List.flatMap_cons, List.flatMap_cons, List.filter_append, ih]

lemma flatMap_single_block (fin : List TypeId) (g : TypeId → List InjectMeta)
    (t : TypeId) (hnd : fin.Nodup) (hz : ∀ k ∈ fin, k ≠ t → g k = []) :
    fin.flatMap g = if t ∈ fin then g t else [] := by
  induction fin with
  | nil => rfl
  | cons k rest ih =>
    rw [List.flatMap_cons]
    have hnd' := (List.nodup_cons.mp hnd).2
    have hnk := (List.nodup_cons.mp hnd).1
    by_cases hkt : k = t
    · subst hkt
      rw [if_pos (List.mem_cons_self _ _)]
      have hrest : rest.flatMap g = [] := by
        rw [ih hnd' (fun k' hk' _ => hz k' (List.mem_cons_of_mem _ hk')
          (fun hEq => hnk (hEq ▸ hk')))]
        rw [if_neg hnk]
      rw [hrest]
      simp
    · rw [hz k (List.mem_cons_self _ _) hkt, List.nil_append]
      rw [ih hnd' (fun k' hk' hne => hz k' (List.mem_cons_of_mem _ hk') hne)]
      by_cases hmem : t ∈ rest
      · rw [if_pos hmem, if_pos (List.mem_cons_of_mem _ hmem)]
      · rw [if_neg hmem, if_neg (by
          intro hc
          rcases List.mem_cons.mp hc with hEq | hIn
          · exact hkt hEq.symm
          · exact hmem hIn)]

/-- C6: Multi-valued providers keep registration order end to end.  For any
registration list and any capability identity `t` all of whose metas are
multi-valued (with at least one provider), the build succeeds and the sealed
injector's `get_all_trait_objects t` yields exactly the values of `t`'s
providers in registration order (`MultiMap` grouping, the topological sort's
`creation_order.extend`, the arena pushes and the multi-index appends all
preserve the within-group order). -/
theorem c6_multi_valued_order (l : List InjectMeta) (t : TypeId)
    (wf : WfGraph (collectMulti l)) (acyc : AcyclicKeys (collectMulti l))
    (closed : ClosedGraph (collectMulti l))
    (hds : DepsSingleValued (collectMulti l))
    (hmulti : ∀ m ∈ l, m.this = t → m.is_multi_binding = true)
    (hsome : ∃ m, m ∈ l ∧ m.this = t) :
    ∃ inj, build_from_metadata l = .ok inj ∧
      inj.get_all_trait_objects t =
        .ok ((l.filter (fun m => m.this == t)).map mkValue) := by
  obtain ⟨inj, heq, hinv⟩ := build_ok_of_graph (collectMulti l) wf acyc closed hds
  refine ⟨inj, heq, ?_⟩
  have hgroup : metasOf (collectMulti l) t = l.filter (fun m => m.this == t) :=
    collectMulti_metasOf l t
  have hmem : ∀ m ∈ metasOf (collectMulti l) t,
      m.is_multi_binding = true ∧ m.this = t := by
    intro m hm
    rw [hgroup] at hm
    have h1 := List.mem_filter.mp hm
    have h2 : m.this = t := by simpa using h1.2
    exact ⟨hmulti m h1.1 h2, h2⟩
  have hgne : metasOf (collectMulti l) t ≠ [] := by
    rw [hgroup]
    obtain ⟨m, hml, hmt⟩ := hsome
    exact List.ne_nil_of_mem (List.mem_filter.mpr ⟨hml, by simpa using hmt⟩)
  obtain ⟨fin, hrep, hnd, hiff, hgood⟩ := topological_sort_spec (collectMulti l) wf acyc
  have htfin : t ∈ fin :=
    (hiff t).mpr (mem_keys_of_metasOf_ne_nil _ t hgne)
  have houtfilter : (topological_sort (collectMulti l)).filter
      (fun m => m.is_multi_binding && m.this == t) = metasOf (collectMulti l) t := by
    rw [hrep, filter_flatMap_blocks]
    rw [flatMap_single_block fin _ t hnd (by
      intro k hk hne
      apply List.filter_eq_nil_iff.mpr
      intro m hm
      have := mem_metasOf_this (collectMulti l) wf k m hm
      simp [this, hne])]
    rw [if_pos htfin]
    apply List.filter_eq_self.mpr
    intro m hm
    obtain ⟨h1, h2⟩ := hmem m hm
    simp [h1, h2]
  have hne2 : multiIdxFrom 0 (topological_sort (collectMulti l)) t ≠ [] := by
    intro hcontra
    have hlen := multiIdxFrom_length 0 (topological_sort (collectMulti l)) t
    rw [hcontra, houtfilter] at hlen
    exact hgne (List.eq_nil_of_length_eq_zero hlen.symm)
  have := getAll_of_inv (topological_sort (collectMulti l)) inj t hinv hne2
  rw [houtfilter, hgroup] at this
  exact this

/-- Witness for C6: capability 10 multi-bound to three providers. -/
theorem c6_multi_valued_order_witness :
    (∃ m, m ∈ [(⟨1, "I1", [], false, 301⟩ : InjectMeta), ⟨2, "I2", [], false, 302⟩,
        ⟨3, "I3", [], false, 303⟩, ⟨10, "Cap", [1], true, 401⟩,
        ⟨10, "Cap", [2], true, 402⟩, ⟨10, "Cap", [3], true, 403⟩] ∧ m.this = 10) ∧
    ∃ inj, build_from_metadata [⟨1, "I1", [], false, 301⟩, ⟨2, "I2", [], false, 302⟩,
        ⟨3, "I3", [], false, 303⟩, ⟨10, "Cap", [1], true, 401⟩,
        ⟨10, "Cap", [2], true, 402⟩, ⟨10, "Cap", [3], true, 403⟩] = .ok inj ∧
      inj.get_all_trait_objects 10 =
        .ok (([(⟨1, "I1", [], false, 301⟩ : InjectMeta), ⟨2, "I2", [], false, 302⟩,
          ⟨3, "I3", [], false, 303⟩, ⟨10, "Cap", [1], true, 401⟩,
          ⟨10, "Cap", [2], true, 402⟩, ⟨10, "Cap", [3], true, 403⟩].filter
            (fun m => m.this == 10)).map mkValue) := by
  refine ⟨⟨⟨10, "Cap", [1], true, 401⟩, by decide, rfl⟩, ?_⟩
  exact c6_multi_valued_order _ 10 ⟨by decide, by decide, by decide⟩
    (acyclic_of_rank _ (fun t => t) (by decide)) (by decide) (by decide)
    (by decide) ⟨⟨10, "Cap", [1], true, 401⟩, by decide, rfl⟩

/-- `Injector::store` (`runtime/injector.rs` lines 131-134): pre-seed a
value; push it and record its slot in the single-valued index. -/
def Injector.store (self : Injector) (static_item : Value) : Injector :=
  { items := (UnsafeStore.push self.items static_item).1,
    index := indexInsert self.index static_item.tid
      (UnsafeStore.push self.items static_item).2,
    multi_bindings_index := self.multi_bindings_index }

/-- Every position recorded in either index points below the arena's
length. -/
def IndexOk (inj : Injector) : Prop :=
  (∀ t p, lookupIndex inj.index t = some p → p < inj.items.items.length) ∧
  (∀ t ps, lookupMulti inj.multi_bindings_index t = some ps →
    ∀ p ∈ ps, p < inj.items.items.length)

/-- C10: Index positions are recorded at the moment their slot is pushed
(`build_and_store` and `store` insert exactly the just-pushed slot, the old
arena length), so every indexed position stays strictly below the arena
length from the empty injector onward, and the out-of-range branch of the
store fetch inside every lookup (`get`, `get_trait_object`,
`get_all_trait_objects` all `unwrap` it) is unreachable. -/
theorem c10_index_positions_in_bounds :
    IndexOk emptyInjector ∧
    (∀ inj m inj', IndexOk inj → inj.build_and_store m = .ok inj' → IndexOk inj') ∧
    (∀ inj v, IndexOk inj → IndexOk (inj.store v)) ∧
    (∀ inj t p, IndexOk inj → lookupIndex inj.index t = some p →
      UnsafeStore.get inj.items p ≠ none) ∧
    (∀ inj t ps, IndexOk inj → lookupMulti inj.multi_bindings_index t = some ps →
      ∀ p ∈ ps, UnsafeStore.get inj.items p ≠ none) := by
  have hget : ∀ (inj : Injector) (p : Nat), p < inj.items.items.length →
      UnsafeStore.get inj.items p ≠ none := by
    intro inj p hp
    unfold UnsafeStore.get
    simp [hp]
  refine ⟨⟨?_, ?_⟩, ?_, ?_, ?_, ?_⟩
  · intro t p h
    cases h
  · intro t ps h
    cases h
  · intro inj m inj' hok hbuild
    unfold Injector.build_and_store at hbuild
    cases hrf : runFactory m inj with
    | error e =>
      rw [hrf] at hbuild
      exact absurd (show (Except.error e : Except BuildError Injector) = Except.ok inj'
        from hbuild) (by simp)
    | ok v =>
      rw [hrf, except_bind_ok] at hbuild
      by_cases htid : (v.tid == m.this) = true
      · rw [if_pos htid] at hbuild
        cases hmb : m.is_multi_binding with
        | true =>
          rw [hmb] at hbuild
          rw [if_pos rfl] at hbuild
          have hinj' : inj' =
              { items := (UnsafeStore.push inj.items v).1,
                index := inj.index,
                multi_bindings_index := multiAppend inj.multi_bindings_index m.this
                  (UnsafeStore.push inj.items v).2 } := by
            injection hbuild with h1
            exact h1.symm
          subst hinj'
          have hlen : (UnsafeStore.push inj.items v).1.items.length =
              inj.items.items.length + 1 := by
            unfold UnsafeStore.push
            simp
          constructor
          · intro t p h
            exact lt_trans (hok.1 t p h) (by simp [UnsafeStore.push])
          · intro t ps h p hp
            rw [lookupMulti_append] at h
            by_cases hxt : t = m.this
            · rw [if_pos hxt] at h
              injection h with hps
              rw [← hps] at hp
              rcases List.mem_append.mp hp with hold | hnew
              · cases hfind : lookupMulti inj.multi_bindings_index m.this with
                | none =>
                  rw [hfind] at hold
                  cases hold
                | some ps0 =>
                  rw [hfind] at hold
                  exact lt_trans (hok.2 m.this ps0 hfind p hold) (by simp [UnsafeStore.push])
              · have : p = (UnsafeStore.push inj.items v).2 := List.mem_singleton.mp hnew
                rw [this]
                simp [UnsafeStore.push]
            · rw [if_neg hxt] at h
              exact lt_trans (hok.2 t ps h p hp) (by simp [UnsafeStore.push])
        | false =>
          rw [hmb] at hbuild
          rw [if_neg (by simp)] at hbuild
          have hinj' : inj' =
              { items := (UnsafeStore.push inj.items v).1,
                index := indexInsert inj.index m.this (UnsafeStore.push inj.items v).2,
                multi_bindings_index := inj.multi_bindings_index } := by
            injection hbuild with h1
            exact h1.symm
          subst hinj'
          have hlen : (UnsafeStore.push inj.items v).1.items.length =
              inj.items.items.length + 1 := by
            unfold UnsafeStore.push
            simp
          constructor
          · intro t p h
            rw [lookupIndex_insert] at h
            by_cases hxt : t = m.this
            · rw [if_pos hxt] at h
              injection h with hp
              rw [← hp]
              unfold UnsafeStore.push
              simp [hlen]
            · rw [if_neg hxt] at h
              exact lt_trans (hok.1 t p h) (by simp [UnsafeStore.push])
          · intro t ps h p hp
            exact lt_trans (hok.2 t ps h p hp) (by simp [UnsafeStore.push])
      · rw [if_neg htid] at hbuild
        cases hbuild
  · intro inj v hok
    unfold Injector.store
    have hlen : (UnsafeStore.push inj.items v).1.items.length =
        inj.items.items.length + 1 := by
      unfold UnsafeStore.push
      simp
    constructor
    · intro t p h
      rw [lookupIndex_insert] at h
      by_cases hxt : t = v.tid
      · rw [if_pos hxt] at h
        injection h with hp
        rw [← hp]
        simp [UnsafeStore.push]
      · rw [if_neg hxt] at h
        exact lt_trans (hok.1 t p h) (by simp [UnsafeStore.push])
    · intro t ps h p hp
      exact lt_trans (hok.2 t ps h p hp) (by simp [UnsafeStore.push])
  · intro inj t p hok h
    exact hget inj p (hok.1 t p h)
  · intro inj t ps hok h p hp
    exact hget inj p (hok.2 t ps h p hp)

/-- Witness for C10 at a concrete pre-seeded injector. -/
theorem c10_index_positions_in_bounds_witness :
    lookupIndex (Injector.store emptyInjector ⟨3, 9⟩).index 3 = some 0 ∧
    UnsafeStore.get (Injector.store emptyInjector ⟨3, 9⟩).items 0 ≠ none := by
  refine ⟨by decide, ?_⟩
  have h := c10_index_positions_in_bounds
  exact h.2.2.2.1 (Injector.store emptyInjector ⟨3, 9⟩) 3 0
    (h.2.2.1 emptyInjector ⟨3, 9⟩ h.1) (by decide)

/-! ### C4: binding validation -/

lemma bindingGroupFails_iff (bs : List BindingMeta) :
    bindingGroupFails bs = true ↔
      1 < bs.length ∧ ∃ b ∈ bs, b.is_multi_binding = false := by
  unfold bindingGroupFails
  rw [Bool.and_eq_true, Bool.or_eq_true, List.any_eq_true]
  constructor
  · rintro ⟨h1, b, hb, hsb⟩
    rw [Bool.not_eq_true'] at hsb
    refine ⟨?_, b, hb, hsb⟩
    rcases h1 with h1 | h1
    · exact of_decide_eq_true h1
    · cases bs with
      | nil => cases hb
      | cons b0 rest =>
        simp only [List.head?_cons, Option.map_some', Option.getD_some] at h1
        cases rest with
        | nil =>
          have hbb : b = b0 := by simpa using hb
          rw [hbb, h1] at hsb
          cases hsb
        | cons b1 rest' => simp
  · rintro ⟨hlen, b, hb, hsb⟩
    exact ⟨Or.inl (decide_eq_true hlen), b, hb, by rw [hsb]; rfl⟩

/-- C4 (corrected): binding validation does NOT fail on a group whose entries
merely disagree-free; it fails exactly when a group has more than one entry
and at least one of them is single-valued. In particular two single-valued
bindings for the same capability whose flags AGREE (both false) still fail
validation, refuting the spec's "all agree passes" direction. -/
theorem c4_binding_validation_iff (bs : List BindingMeta) :
    (∃ name, validateBindings bs = some name) ↔
      ∃ e ∈ collectBindings bs, 1 < e.2.length ∧
        ∃ b ∈ e.2, b.is_multi_binding = false := by
  unfold validateBindings
  constructor
  · rintro ⟨name, h⟩
    rw [Option.map_eq_some'] at h
    obtain ⟨e, he, -⟩ := h
    have hmem := List.mem_of_find?_eq_some he
    have hfail := List.find?_some he
    rw [bindingGroupFails_iff] at hfail
    exact ⟨e, hmem, hfail⟩
  · rintro ⟨e, he, hfail⟩
    have hsome : ∃ e2,
        (collectBindings bs).find? (fun x => bindingGroupFails x.2) = some e2 := by
      rw [← Option.isSome_iff_exists, List.find?_isSome]
      exact ⟨e, he, (bindingGroupFails_iff e.2).mpr hfail⟩
    obtain ⟨e2, he2⟩ := hsome
    exact ⟨_, by rw [he2]; rfl⟩

/-- C4 counterexample: two single-valued bindings for capability 10 whose
multi-valued flags agree (both false) nevertheless make validation fail,
naming the capability — refuting "fails iff some group's flags disagree". -/
theorem c4_agreeing_flags_counterexample :
    validateBindings
      [⟨10, "Cap", 1, false, 401⟩, ⟨10, "Cap", 2, false, 402⟩] = some "Cap" ∧
    (⟨10, "Cap", 1, false, 401⟩ : BindingMeta).is_multi_binding =
      (⟨10, "Cap", 2, false, 402⟩ : BindingMeta).is_multi_binding := by
  exact ⟨rfl, rfl⟩

/-! ### C7: missing dependency -/

/-- C7 (corrected): a dependency absent from the descriptor set is deferred
silently — the traversal still terminates and emits every registered meta —
and the later fetch fails with the not-registered error naming the MISSING
identity itself (the argument of the failed index lookup), not the dependent
descriptor. -/
theorem c7_missing_dep_defer_and_error (g0 : Graph) (wf : WfGraph g0)
    (d : TypeId) (hd : d ∉ keysOf g0)
    (hdep : ∃ m ∈ allMetas g0, d ∈ m.dependencies) :
    (topological_sort g0).Perm (allMetas g0) ∧
    ∀ inj : Injector, lookupIndex inj.index d = none →
      inj.get d = .error (.unableToGet d) := by
  refine ⟨topological_sort_perm_all g0 wf, ?_⟩
  intro inj h
  unfold Injector.get
  rw [h]

/-- C7 witness: the single descriptor D (identity 5) depends on unregistered
identity 7; the sort emits D, and a fetch of 7 against an injector with no
entry for 7 yields the error naming 7. -/
theorem c7_missing_dep_defer_and_error_witness :
    WfGraph (collectMulti [⟨5, "D", [7], false, 105⟩]) ∧
    (7 : TypeId) ∉ keysOf (collectMulti [⟨5, "D", [7], false, 105⟩]) ∧
    (topological_sort (collectMulti [⟨5, "D", [7], false, 105⟩])).Perm
      (allMetas (collectMulti [⟨5, "D", [7], false, 105⟩])) ∧
    Injector.get emptyInjector 7 = .error (.unableToGet 7) :=
  ⟨by decide, by decide,
    (c7_missing_dep_defer_and_error (collectMulti [⟨5, "D", [7], false, 105⟩])
      (by decide) 7 (by decide)
      ⟨⟨5, "D", [7], false, 105⟩, by decide, by decide⟩).1,
    (c7_missing_dep_defer_and_error (collectMulti [⟨5, "D", [7], false, 105⟩])
      (by decide) 7 (by decide)
      ⟨⟨5, "D", [7], false, 105⟩, by decide, by decide⟩).2 emptyInjector rfl⟩

/-- C7 counterexample (to the original claim's error-attribution): building
the set whose only descriptor is D (identity 5, name "D") with missing
dependency 7 succeeds through the sort, then fails with the error carrying
the missing identity 7 — not D's own identity 5 — so the error does not name
the dependent descriptor. -/
theorem c7_error_names_missing_counterexample :
    topological_sort (collectMulti [⟨5, "D", [7], false, 105⟩]) =
      [⟨5, "D", [7], false, 105⟩] ∧
    build_from_metadata [⟨5, "D", [7], false, 105⟩] =
      .error (.unableToGet 7) ∧
    BuildError.unableToGet 7 ≠ BuildError.unableToGet 5 := by
  refine ⟨?_, ?_, by decide⟩
  · rw [← topological_sortF_eq]
    decide
  · unfold build_from_metadata
    rw [← topological_sortF_eq]
    rfl

/-! ### C9: sibling traversal order -/

/-- C9 (corrected): when the depth-first traversal expands a descriptor whose
dependency list is [d1, d2], it pushes the children onto the work stack in
REVERSED registration order, so d2 is expanded before d1 — sibling
dependencies are visited in reverse registration order, not registration
order. -/
theorem c9_siblings_reversed (g : Graph) (t d1 d2 : TypeId)
    (ms : List InjectMeta) (q' : List Visit) (ord : List InjectMeta)
    (h : lookupKey g t = some ms) (hch : childrenOf ms = [d1, d2]) :
    dfsLoop g (Visit.beforeChildren t :: q') ord =
      dfsLoop (eraseKey g t)
        (Visit.beforeChildren d2 :: Visit.beforeChildren d1 ::
          Visit.afterChildren ms :: q') ord := by
  rw [dfsLoop_before_hit g t ms q' ord h, hch]
  rfl

/-- C9 witness: expanding descriptor P (identity 0) with dependency list
[1, 2] puts identity 2 above identity 1 on the stack. -/
theorem c9_siblings_reversed_witness :
    lookupKey
      (collectMulti [⟨0, "P", [1, 2], false, 200⟩, ⟨1, "D1", [], false, 201⟩,
        ⟨2, "D2", [], false, 202⟩]) 0 = some [⟨0, "P", [1, 2], false, 200⟩] ∧
    childrenOf [⟨0, "P", [1, 2], false, 200⟩] = [1, 2] ∧
    dfsLoop
      (collectMulti [⟨0, "P", [1, 2], false, 200⟩, ⟨1, "D1", [], false, 201⟩,
        ⟨2, "D2", [], false, 202⟩])
      [Visit.beforeChildren 0] [] =
    dfsLoop
      (eraseKey
        (collectMulti [⟨0, "P", [1, 2], false, 200⟩, ⟨1, "D1", [], false, 201⟩,
          ⟨2, "D2", [], false, 202⟩]) 0)
      [Visit.beforeChildren 2, Visit.beforeChildren 1,
        Visit.afterChildren [⟨0, "P", [1, 2], false, 200⟩]] [] :=
  ⟨by decide, by decide,
    c9_siblings_reversed
      (collectMulti [⟨0, "P", [1, 2], false, 200⟩, ⟨1, "D1", [], false, 201⟩,
        ⟨2, "D2", [], false, 202⟩])
      0 1 2 [⟨0, "P", [1, 2], false, 200⟩] [] [] (by decide) (by decide)⟩

/-- C9 counterexample: for the descriptor set P (deps [1, 2]), D1, D2 — with
D1 registered before D2 — the construction order is [D2, D1, P]: D2's
construction index precedes D1's, refuting "sibling dependencies are visited
in registration order". -/
theorem c9_registration_order_counterexample :
    topological_sort
      (collectMulti [⟨0, "P", [1, 2], false, 200⟩, ⟨1, "D1", [], false, 201⟩,
        ⟨2, "D2", [], false, 202⟩]) =
      [⟨2, "D2", [], false, 202⟩, ⟨1, "D1", [], false, 201⟩,
        ⟨0, "P", [1, 2], false, 200⟩] := by
  rw [← topological_sortF_eq]
  decide

/-! ### C2: cycles -/

instance (g : Graph) (a b : TypeId) : Decidable (EdgeKey g a b) := by
  unfold EdgeKey
  infer_instance

lemma edgeKey_src_mem (g : Graph) (a b : TypeId) (h : EdgeKey g a b) :
    a ∈ keysOf g := by
  unfold EdgeKey depsOfKey at h
  apply mem_keys_of_metasOf_ne_nil g a
  intro hnil
  rw [hnil] at h
  simp [childrenOf] at h

lemma transGen_edge_src (g : Graph) (x y : TypeId)
    (h : Relation.TransGen (EdgeKey g) x y) : x ∈ keysOf g := by
  induction h with
  | single h1 => exact edgeKey_src_mem g _ _ h1
  | tail h1 h2 ih => exact ih

lemma metasOf_singleton (g : Graph) (wf : WfGraph g)
    (hsingle : ∀ e ∈ g, e.2.length = 1) (t : TypeId) (ht : t ∈ keysOf g) :
    ∃ m, metasOf g t = [m] := by
  rcases List.mem_map.mp ht with ⟨e, he, hfst⟩
  obtain ⟨m, hm1⟩ := List.length_eq_one.mp (hsingle e he)
  refine ⟨m, ?_⟩
  rw [← hfst, metasOf_of_mem g wf.1 e he]
  exact hm1

lemma allMetas_nodup_single (g : Graph)
    (hnd : (keysOf g).Nodup)
    (hthis : ∀ e ∈ g, ∀ m ∈ e.2, m.this = e.1)
    (hsingle : ∀ e ∈ g, e.2.length = 1) : (allMetas g).Nodup := by
  induction g with
  | nil => exact List.nodup_nil
  | cons e rest ih =>
    simp only [allMetas, List.flatMap_cons]
    obtain ⟨m, hm⟩ := List.length_eq_one.mp (hsingle e (List.mem_cons_self _ _))
    rw [hm, List.singleton_append, List.nodup_cons]
    unfold keysOf at hnd
    rw [List.map_cons, List.nodup_cons] at hnd
    constructor
    · intro hmem
      rcases List.mem_flatMap.mp hmem with ⟨e2, he2, hme2⟩
      have h1 : m.this = e2.1 := hthis e2 (List.mem_cons_of_mem _ he2) m hme2
      have h2 : m.this = e.1 := hthis e (List.mem_cons_self _ _) m
        (by rw [hm]; exact List.mem_singleton_self m)
      exact hnd.1 (List.mem_map.mpr ⟨e2, he2, by rw [← h1, h2]⟩)
    · have ihr := ih hnd.2 (fun e2 he2 => hthis e2 (List.mem_cons_of_mem _ he2))
        (fun e2 he2 => hsingle e2 (List.mem_cons_of_mem _ he2))
      unfold allMetas at ihr
      exact ihr

/-- C2 (corrected): the depth-first sort contains no cycle detection at all.
On a cyclic descriptor set the traversal still terminates and emits a
permutation of every registered descriptor (no cycle error exists in the
error type, and nothing is reported during the sort); the cycle only
surfaces afterwards, because no construction order for it can satisfy the
fetches, so building the sorted list can never succeed: some factory's
dependency fetch fails with the missing-index error. -/
theorem c2_cycle_no_detection (g0 : Graph) (wf : WfGraph g0)
    (hsingle : ∀ e ∈ g0, e.2.length = 1)
    (hcyc : ∃ a, Relation.TransGen (EdgeKey g0) a a) :
    (topological_sort g0).Perm (allMetas g0) ∧
    ∀ inj, buildFromSorted emptyInjector (topological_sort g0) ≠ .ok inj := by
  have hperm := topological_sort_perm_all g0 wf
  refine ⟨hperm, ?_⟩
  intro inj hok
  have hnd : (topological_sort g0).Nodup :=
    hperm.nodup_iff.mpr (allMetas_nodup_single g0 wf.1 wf.2.2 hsingle)
  have hdeps := buildFromSorted_deps_of_ok (topological_sort g0) [] emptyInjector
    inj injInv_empty hok
  have hstep : ∀ x y mx my, EdgeKey g0 x y → metasOf g0 x = [mx] →
      metasOf g0 y = [my] →
      (topological_sort g0).indexOf my < (topological_sort g0).indexOf mx := by
    intro x y mx my hxy hmx hmy
    have hy : y ∈ mx.dependencies := by
      unfold EdgeKey depsOfKey at hxy
      rw [hmx] at hxy
      simpa [childrenOf] using hxy
    have hlkx : lookupKey g0 x = some [mx] := by
      unfold metasOf at hmx
      cases hl : lookupKey g0 x with
      | none => rw [hl] at hmx; cases hmx
      | some ms => rw [hl] at hmx; rw [show ms = [mx] from hmx]
    have hmxall : mx ∈ allMetas g0 :=
      List.mem_flatMap.mpr ⟨(x, [mx]), lookupKey_mem g0 x [mx] hlkx,
        List.mem_singleton_self mx⟩
    have hmxout : mx ∈ topological_sort g0 := hperm.mem_iff.mpr hmxall
    obtain ⟨pre, suf, hsplit⟩ := List.append_of_mem hmxout
    obtain ⟨m', hm'pre0, hthis, -⟩ := hdeps pre mx suf hsplit y hy
    have hm'pre : m' ∈ pre := by simpa using hm'pre0
    have hm'all : m' ∈ allMetas g0 :=
      hperm.subset (by rw [hsplit]; exact List.mem_append_left _ hm'pre)
    rcases List.mem_flatMap.mp hm'all with ⟨e, he, hme⟩
    have h1 : m'.this = e.1 := wf.2.2 e he m' hme
    have hmetY : metasOf g0 y = e.2 := by
      rw [← hthis, h1]
      exact metasOf_of_mem g0 wf.1 e he
    have hm'my : m' = my := by
      have : m' ∈ [my] := by rw [← hmy, hmetY]; exact hme
      simpa using this
    have hnd2 : (pre ++ mx :: suf).Nodup := hsplit ▸ hnd
    have hmxpre : mx ∉ pre := fun hin =>
      (List.nodup_append.mp hnd2).2.2 hin (List.mem_cons_self _ _)
    have hixmx : (topological_sort g0).indexOf mx = pre.length := by
      rw [hsplit, List.indexOf_append_of_not_mem hmxpre]
      simp
    have hixmy : (topological_sort g0).indexOf my < pre.length := by
      rw [hsplit, List.indexOf_append_of_mem (hm'my ▸ hm'pre)]
      exact List.indexOf_lt_length.mpr (hm'my ▸ hm'pre)
    omega
  have htrans : ∀ x y, Relation.TransGen (EdgeKey g0) x y →
      ∀ mx my, metasOf g0 x = [mx] → metasOf g0 y = [my] →
      (topological_sort g0).indexOf my < (topological_sort g0).indexOf mx := by
    intro x y hxy
    induction hxy with
    | single h1 =>
      intro mx my hmx hmy
      exact hstep _ _ _ _ h1 hmx hmy
    | tail h1 h2 ih =>
      rename_i b z
      intro mx mz hmx hmz
      have hbkeys : b ∈ keysOf g0 := edgeKey_src_mem g0 b z h2
      obtain ⟨mb, hmb⟩ := metasOf_singleton g0 wf hsingle b hbkeys
      exact lt_trans (hstep b z mb mz h2 hmb hmz) (ih mx mb hmx hmb)
  obtain ⟨a, ha⟩ := hcyc
  have hakeys : a ∈ keysOf g0 := transGen_edge_src g0 a a ha
  obtain ⟨ma, hma⟩ := metasOf_singleton g0 wf hsingle a hakeys
  exact absurd (htrans a a ha ma ma hma hma) (lt_irrefl _)

/-- C2 witness: the 3-cycle A→B→C→A (identities 0→1→2→0) is well-formed and
cyclic; the theorem yields that the sort emits all three descriptors and no
build of the sorted list succeeds. -/
theorem c2_cycle_no_detection_witness :
    WfGraph (collectMulti
      [⟨0, "A", [1], false, 100⟩, ⟨1, "B", [2], false, 101⟩,
        ⟨2, "C", [0], false, 102⟩]) ∧
    ((topological_sort (collectMulti
      [⟨0, "A", [1], false, 100⟩, ⟨1, "B", [2], false, 101⟩,
        ⟨2, "C", [0], false, 102⟩])).Perm
      (allMetas (collectMulti
        [⟨0, "A", [1], false, 100⟩, ⟨1, "B", [2], false, 101⟩,
          ⟨2, "C", [0], false, 102⟩])) ∧
    ∀ inj, buildFromSorted emptyInjector (topological_sort (collectMulti
      [⟨0, "A", [1], false, 100⟩, ⟨1, "B", [2], false, 101⟩,
        ⟨2, "C", [0], false, 102⟩])) ≠ .ok inj) :=
  ⟨by decide,
    c2_cycle_no_detection
      (collectMulti
        [⟨0, "A", [1], false, 100⟩, ⟨1, "B", [2], false, 101⟩,
          ⟨2, "C", [0], false, 102⟩])
      (by decide) (by decide)
      ⟨0, Relation.TransGen.head
        (show EdgeKey (collectMulti
          [⟨0, "A", [1], false, 100⟩, ⟨1, "B", [2], false, 101⟩,
            ⟨2, "C", [0], false, 102⟩]) 0 1 by decide)
        (Relation.TransGen.head
          (show EdgeKey (collectMulti
            [⟨0, "A", [1], false, 100⟩, ⟨1, "B", [2], false, 101⟩,
              ⟨2, "C", [0], false, 102⟩]) 1 2 by decide)
          (Relation.TransGen.single
            (show EdgeKey (collectMulti
              [⟨0, "A", [1], false, 100⟩, ⟨1, "B", [2], false, 101⟩,
                ⟨2, "C", [0], false, 102⟩]) 2 0 by decide)))⟩⟩

/-- C2 counterexample: on the explicit 3-cycle A→B→C→A the sort terminates
and returns all three descriptors (no error is signalled during traversal —
the error type has no cycle constructor), and the build then fails with the
missing-index error unableToGet 0 raised by a dependency fetch, not with any
cycle diagnostic naming a descriptor. -/
theorem c2_cycle_undetected_counterexample :
    topological_sort (collectMulti
      [⟨0, "A", [1], false, 100⟩, ⟨1, "B", [2], false, 101⟩,
        ⟨2, "C", [0], false, 102⟩]) =
      [⟨2, "C", [0], false, 102⟩, ⟨1, "B", [2], false, 101⟩,
        ⟨0, "A", [1], false, 100⟩] ∧
    build_from_metadata
      [⟨0, "A", [1], false, 100⟩, ⟨1, "B", [2], false, 101⟩,
        ⟨2, "C", [0], false, 102⟩] = .error (.unableToGet 0) := by
  constructor
  · rw [← topological_sortF_eq]
    decide
  · unfold build_from_metadata
    rw [← topological_sortF_eq]
    rfl
